import Mathlib

/-!
Shallow embedding of the qub-typescript-json library (src/sources/json.ts):
the JSON tokenizer, the recursive-descent parser with its recovery state
machines, the segment tree, and the formatter.  Text is modelled as
`List Char`; the external qub lexer (an out-of-scope collaborator of the
library) is modelled from its documented contract: classified lexemes that
are single characters or maximal one-class runs, with "\r\n" forming a
single newline lexeme.
-/

set_option maxRecDepth 10000

namespace Json

/-- Character codes used to avoid quote and brace literals in source text. -/
def dquoteChar : Char := Char.ofNat 34

def squoteChar : Char := Char.ofNat 39

def lcbChar : Char := Char.ofNat 123

def rcbChar : Char := Char.ofNat 125

/-- Lexeme classification, following the qub lexer contract described for the
library (left/right curly and square brackets, colon, comma, letters runs,
quotes, whitespace characters, newline, dash, plus, digit runs, period,
forward slash, asterisk, backslash, and a catch-all). -/
inductive LexType where
  | leftCurlyBracket
  | rightCurlyBracket
  | leftSquareBracket
  | rightSquareBracket
  | colon
  | comma
  | letters
  | singleQuote
  | doubleQuote
  | space
  | tab
  | carriageReturn
  | newLine
  | dash
  | plus
  | digits
  | period
  | forwardSlash
  | asterisk
  | backslash
  | unrecognized
  deriving DecidableEq, Repr

/-- A lexeme: a classified unit of source text. -/
structure Lex where
  type : LexType
  text : List Char
  deriving DecidableEq, Repr

def Lex.length (l : Lex) : Nat := l.text.length

def isLetterChar (c : Char) : Bool := c.isAlpha

def isDigitChar (c : Char) : Bool := c.isDigit

/-- Classify a single character that is not a letter, digit or carriage
return into its lexeme type. -/
def classifyChar (c : Char) : LexType :=
  if c = lcbChar then .leftCurlyBracket
  else if c = rcbChar then .rightCurlyBracket
  else if c = '[' then .leftSquareBracket
  else if c = ']' then .rightSquareBracket
  else if c = ':' then .colon
  else if c = ',' then .comma
  else if c = squoteChar then .singleQuote
  else if c = dquoteChar then .doubleQuote
  else if c = ' ' then .space
  else if c = '\t' then .tab
  else if c = '\n' then .newLine
  else if c = '-' then .dash
  else if c = '+' then .plus
  else if c = '.' then .period
  else if c = '/' then .forwardSlash
  else if c = '*' then .asterisk
  else if c = '\\' then .backslash
  else .unrecognized

theorem length_dropWhile_le (p : Char → Bool) (l : List Char) :
    (l.dropWhile p).length ≤ l.length := by
  induction l with
  | nil => simp [List.dropWhile]
  | cons c cs ih =>
    simp only [List.dropWhile]
    split
    · exact Nat.le_trans ih (Nat.le_succ _)
    · exact Nat.le_refl _

/-- Modelled from the spec: the external qub lexer, a pull-based stream of
classified lexemes over the input text.  Letters and digits form maximal
runs; a carriage return directly followed by a line feed forms a single
newline lexeme; every other character is a single lexeme of its class. -/
def lexer : List Char → List Lex
  | [] => []
  | c :: cs =>
    if isLetterChar c then
      ⟨.letters, c :: cs.takeWhile isLetterChar⟩ :: lexer (cs.dropWhile isLetterChar)
    else if isDigitChar c then
      ⟨.digits, c :: cs.takeWhile isDigitChar⟩ :: lexer (cs.dropWhile isDigitChar)
    else if c = '\r' then
      match cs with
      | [] => [⟨.carriageReturn, ['\r']⟩]
      | c2 :: cs2 =>
        if c2 = '\n' then ⟨.newLine, ['\r', '\n']⟩ :: lexer cs2
        else ⟨.carriageReturn, ['\r']⟩ :: lexer (c2 :: cs2)
    else
      ⟨classifyChar c, [c]⟩ :: lexer cs
  termination_by l => l.length
  decreasing_by
  all_goals simp only [List.length_cons]
  all_goals first
    | exact Nat.lt_succ_of_le (length_dropWhile_le _ _)
    | omega

/-- Concatenated text of a list of lexemes. -/
def lexesText : List Lex → List Char
  | [] => []
  | l :: ls => l.text ++ lexesText ls

/-- Total character length of a list of lexemes. -/
def lexesLength (ls : List Lex) : Nat := (lexesText ls).length

theorem lexesText_append (a b : List Lex) :
    lexesText (a ++ b) = lexesText a ++ lexesText b := by
  induction a with
  | nil => simp [lexesText]
  | cons l ls ih => simp [lexesText, ih]

/-- The lexer loses no text: concatenating the lexemes reproduces the input. -/
theorem lexer_text (s : List Char) : lexesText (lexer s) = s := by
  induction s using lexer.induct
  all_goals rw [lexer.eq_def]
  all_goals simp_all [lexesText, List.takeWhile_append_dropWhile]

/-- The sixteen JSON token kinds of `TokenType` in json.ts. -/
inductive TokenType where
  | leftCurlyBracket
  | rightCurlyBracket
  | leftSquareBracket
  | rightSquareBracket
  | colon
  | comma
  | trueKeyword
  | falseKeyword
  | nullKeyword
  | newLine
  | quotedString
  | number
  | whitespace
  | lineComment
  | blockComment
  | unrecognized
  deriving DecidableEq, Repr

/-- A JSON token: an ordered sequence of source lexemes plus its kind and its
start index, as in the `Token` class. -/
structure Token where
  type : TokenType
  lexes : List Lex
  start : Nat
  deriving DecidableEq, Repr

/-- Original text of a token (`Token.toString`). -/
def Token.text (t : Token) : List Char := lexesText t.lexes

/-- Character length of a token (`Token.getLength`). -/
def Token.length (t : Token) : Nat := t.text.length

/-- The index directly after the token (`Segment.afterEndIndex`). -/
def Token.afterEnd (t : Token) : Nat := t.start + t.length

/-- A positioned diagnostic issue `{message, span = [start, start+length)}`. -/
structure Issue where
  message : String
  start : Nat
  length : Nat
  deriving DecidableEq, Repr

def Issue.afterEnd (i : Issue) : Nat := i.start + i.length

/-- Apostrophe as a string, used to assemble issue messages. -/
def apos : String := String.singleton squoteChar

def missingWholeMsg : String := "Missing whole number digits."

def expectedWholeMsg : String := "Expected whole number digits."

def missingFracMsg : String := "Missing fractional number digits."

def expectedFracMsg : String := "Expected fractional number digits."

def eShouldBeMsg : String := apos ++ "E" ++ apos ++ " should be " ++ apos ++ "e" ++ apos ++ "."

def missingExpMsg : String := "Missing exponent number digits."

def expectedExpMsg : String := "Expected exponent number digits."

def missingEndQuoteMsg (startQuote : Lex) : String :=
  "Missing end quote (" ++ String.mk startQuote.text ++ ")."

def missingSecondSlashMsg : String := "Missing line comment" ++ apos ++ "s second forward slash (\"/\")."

def expectedSecondSlashMsg : String := "Expected line comment" ++ apos ++ "s second forward slash (\"/\")."

/-- Quoted-string scan of the tokenizer: consume lexemes until an unescaped
closing quote of the same kind as the opening quote, a backslash setting the
escape flag for the following lexeme.  Returns the consumed lexemes, whether
an end quote was found, and the remaining lexemes. -/
def scanQuoted (q : LexType) (escaped : Bool) : List Lex → List Lex × Bool × List Lex
  | [] => ([], false, [])
  | l :: ls =>
    if escaped then
      let r := scanQuoted q false ls
      (l :: r.1, r.2.1, r.2.2)
    else if l.type = .backslash then
      let r := scanQuoted q true ls
      (l :: r.1, r.2.1, r.2.2)
    else if l.type = q then
      ([l], true, ls)
    else
      let r := scanQuoted q false ls
      (l :: r.1, r.2.1, r.2.2)

/-- Block-comment scan of the tokenizer (the loop after `/*` was consumed):
every lexeme is consumed; after an asterisk the following lexeme is consumed
as well, and only if that following lexeme is a forward slash the comment
closes.  Returns consumed lexemes and the remaining lexemes. -/
def scanBlock : List Lex → List Lex × List Lex
  | [] => ([], [])
  | l :: ls =>
    if l.type = .asterisk then
      match ls with
      | [] => ([l], [])
      | m :: ms =>
        if m.type = .forwardSlash then ([l, m], ms)
        else
          let r := scanBlock ms
          (l :: m :: r.1, r.2)
    else
      let r := scanBlock ls
      (l :: r.1, r.2)

/-- Negative-sign stage of the number scan: consume a leading dash if
present.  Returns consumed lexemes, the position after them, and the rest. -/
def scanNumSign (p : Nat) (ls : List Lex) : List Lex × Nat × List Lex :=
  match ls with
  | l :: rest => if l.type = .dash then ([l], p + l.length, rest) else ([], p, ls)
  | [] => ([], p, [])

/-- Whole-digits stage of the number scan.  At end of stream the issue is
anchored at the number start with length one; a non-digits lexeme yields an
issue at that lexeme and is not consumed. -/
def scanNumWhole (numberStart p : Nat) (ls : List Lex) :
    List Lex × List Issue × Nat × List Lex :=
  match ls with
  | [] => ([], [⟨missingWholeMsg, numberStart, 1⟩], p, [])
  | l :: rest =>
    if l.type = .digits then ([l], [], p + l.length, rest)
    else ([], [⟨expectedWholeMsg, p, l.length⟩], p, l :: rest)

/-- Decimal-point stage of the number scan: a period triggers the fractional
digits with the same missing/expected duality, anchored at the period or at
the offending lexeme. -/
def scanNumFrac (p : Nat) (ls : List Lex) : List Lex × List Issue × Nat × List Lex :=
  match ls with
  | [] => ([], [], p, [])
  | l :: rest =>
    if l.type = .period then
      match rest with
      | [] => ([l], [⟨missingFracMsg, p, 1⟩], p + l.length, [])
      | d :: rest2 =>
        if d.type = .digits then ([l, d], [], p + l.length + d.length, rest2)
        else ([l], [⟨expectedFracMsg, p + l.length, d.length⟩], p + l.length, d :: rest2)
    else ([], [], p, l :: rest)

/-- Exponent stage of the number scan: a letters run spelling e or E
triggers; uppercase E additionally issues a notice; an optional sign; then
required digits with the missing/expected duality. -/
def scanNumExp (p : Nat) (ls : List Lex) : List Lex × List Issue × List Lex :=
  match ls with
  | [] => ([], [], [])
  | l :: rest =>
    if l.type = .letters ∧ (l.text = ['e'] ∨ l.text = ['E']) then
      let eIss : List Issue := if l.text = ['E'] then [⟨eShouldBeMsg, p, 1⟩] else []
      let pe := p + l.length
      match rest with
      | [] => ([l], eIss ++ [⟨missingExpMsg, p, 1⟩], [])
      | d :: rest2 =>
        if d.type = .dash ∨ d.type = .plus then
          match rest2 with
          | [] => ([l, d], eIss ++ [⟨missingExpMsg, pe, 1⟩], [])
          | dd :: rest3 =>
            if dd.type = .digits then ([l, d, dd], eIss, rest3)
            else ([l, d], eIss ++ [⟨expectedExpMsg, pe + d.length, dd.length⟩], dd :: rest3)
        else
          if d.type = .digits then ([l, d], eIss, rest2)
          else ([l], eIss ++ [⟨expectedExpMsg, pe, d.length⟩], d :: rest2)
    else ([], [], l :: rest)

/-- Number scan of the tokenizer: optional dash, optional whole digits,
optional fraction, optional exponent, each part independently recoverable
with its own issues.  `numberStart` is the start index of the number token.
Returns the consumed lexemes, the issues in emission order, and the rest. -/
def scanNumber (numberStart : Nat) (ls : List Lex) : List Lex × List Issue × List Lex :=
  let s1 := scanNumSign numberStart ls
  let s2 := scanNumWhole numberStart s1.2.1 s1.2.2
  let s3 := scanNumFrac s2.2.2.1 s2.2.2.2
  let s4 := scanNumExp s3.2.2.1 s3.2.2.2
  (s1.1 ++ s2.1 ++ s3.1 ++ s4.1, s2.2.1 ++ s3.2.1 ++ s4.2.1, s4.2.2)

/-- Whitespace lexemes coalesced into a Whitespace token: space, tab and
carriage return (newline excluded). -/
def isWsLex (l : Lex) : Bool := l.type = .space ∨ l.type = .tab ∨ l.type = .carriageReturn

def notNewLineLex (l : Lex) : Bool := ¬ l.type = .newLine

/-- One step of `Tokenizer.next`: build the next token from the first lexeme
`l` and the following lexemes `ls`, returning the token, the remaining
lexemes, and the issues emitted while building it.  `pos` is the token start
index.  For the degraded single-slash cases the source constructs a fresh
forward-slash lexeme with the same text as `l`; here `l` itself is reused. -/
def nextToken (pos : Nat) (l : Lex) (ls : List Lex) : Token × List Lex × List Issue :=
  match l.type with
  | .leftCurlyBracket => (⟨.leftCurlyBracket, [l], pos⟩, ls, [])
  | .rightCurlyBracket => (⟨.rightCurlyBracket, [l], pos⟩, ls, [])
  | .leftSquareBracket => (⟨.leftSquareBracket, [l], pos⟩, ls, [])
  | .rightSquareBracket => (⟨.rightSquareBracket, [l], pos⟩, ls, [])
  | .colon => (⟨.colon, [l], pos⟩, ls, [])
  | .comma => (⟨.comma, [l], pos⟩, ls, [])
  | .letters =>
    if l.text = "true".toList then (⟨.trueKeyword, [l], pos⟩, ls, [])
    else if l.text = "false".toList then (⟨.falseKeyword, [l], pos⟩, ls, [])
    else if l.text = "null".toList then (⟨.nullKeyword, [l], pos⟩, ls, [])
    else (⟨.unrecognized, [l], pos⟩, ls, [])
  | .singleQuote =>
    let r := scanQuoted .singleQuote false ls
    let lexes := l :: r.1
    (⟨.quotedString, lexes, pos⟩, r.2.2,
      if r.2.1 then [] else [⟨missingEndQuoteMsg l, pos, lexesLength lexes⟩])
  | .doubleQuote =>
    let r := scanQuoted .doubleQuote false ls
    let lexes := l :: r.1
    (⟨.quotedString, lexes, pos⟩, r.2.2,
      if r.2.1 then [] else [⟨missingEndQuoteMsg l, pos, lexesLength lexes⟩])
  | .space =>
    (⟨.whitespace, l :: ls.takeWhile isWsLex, pos⟩, ls.dropWhile isWsLex, [])
  | .tab =>
    (⟨.whitespace, l :: ls.takeWhile isWsLex, pos⟩, ls.dropWhile isWsLex, [])
  | .carriageReturn =>
    (⟨.whitespace, l :: ls.takeWhile isWsLex, pos⟩, ls.dropWhile isWsLex, [])
  | .newLine => (⟨.newLine, [l], pos⟩, ls, [])
  | .dash =>
    let r := scanNumber pos (l :: ls)
    (⟨.number, r.1, pos⟩, r.2.2, r.2.1)
  | .digits =>
    let r := scanNumber pos (l :: ls)
    (⟨.number, r.1, pos⟩, r.2.2, r.2.1)
  | .period =>
    let r := scanNumber pos (l :: ls)
    (⟨.number, r.1, pos⟩, r.2.2, r.2.1)
  | .forwardSlash =>
    match ls with
    | [] => (⟨.unrecognized, [l], pos⟩, [], [⟨missingSecondSlashMsg, pos, 1⟩])
    | m :: ms =>
      if m.type = .forwardSlash then
        (⟨.lineComment, l :: m :: ms.takeWhile notNewLineLex, pos⟩, ms.dropWhile notNewLineLex, [])
      else if m.type = .asterisk then
        let r := scanBlock ms
        (⟨.blockComment, l :: m :: r.1, pos⟩, r.2, [])
      else
        (⟨.unrecognized, [l], pos⟩, m :: ms, [⟨expectedSecondSlashMsg, pos + l.length, m.length⟩])
  | .plus => (⟨.unrecognized, [l], pos⟩, ls, [])
  | .asterisk => (⟨.unrecognized, [l], pos⟩, ls, [])
  | .backslash => (⟨.unrecognized, [l], pos⟩, ls, [])
  | .unrecognized => (⟨.unrecognized, [l], pos⟩, ls, [])

theorem length_dropWhile_le' {α : Type} (p : α → Bool) (l : List α) :
    (l.dropWhile p).length ≤ l.length := by
  induction l with
  | nil => simp [List.dropWhile]
  | cons c cs ih =>
    simp only [List.dropWhile]
    split
    · exact Nat.le_trans ih (Nat.le_succ _)
    · exact Nat.le_refl _

theorem scanQuoted_rest_le (q : LexType) (e : Bool) (ls : List Lex) :
    (scanQuoted q e ls).2.2.length ≤ ls.length := by
  induction ls generalizing e with
  | nil => simp [scanQuoted]
  | cons l ls ih =>
    simp only [scanQuoted]
    split
    · exact Nat.le_trans (ih false) (Nat.le_succ _)
    · split
      · exact Nat.le_trans (ih true) (Nat.le_succ _)
      · split
        · exact Nat.le_succ _
        · exact Nat.le_trans (ih false) (Nat.le_succ _)

theorem scanBlock_rest_le (ls : List Lex) :
    (scanBlock ls).2.length ≤ ls.length := by
  induction ls using scanBlock.induct
  all_goals rw [scanBlock.eq_def]
  all_goals repeat' split
  all_goals simp_all
  all_goals omega

theorem scanNumSign_rest_le (p : Nat) (ls : List Lex) :
    (scanNumSign p ls).2.2.length ≤ ls.length := by
  unfold scanNumSign
  repeat' split
  all_goals simp_all

theorem scanNumWhole_rest_le (n p : Nat) (ls : List Lex) :
    (scanNumWhole n p ls).2.2.2.length ≤ ls.length := by
  unfold scanNumWhole
  repeat' split
  all_goals simp_all

theorem scanNumFrac_rest_le (p : Nat) (ls : List Lex) :
    (scanNumFrac p ls).2.2.2.length ≤ ls.length := by
  unfold scanNumFrac
  repeat' split
  all_goals simp_all
  all_goals omega

theorem scanNumExp_rest_le (p : Nat) (ls : List Lex) :
    (scanNumExp p ls).2.2.length ≤ ls.length := by
  unfold scanNumExp
  repeat' split
  all_goals simp_all
  all_goals omega

theorem scanNumber_rest_le (p : Nat) (l : Lex) (ls : List Lex)
    (h : l.type = .dash ∨ l.type = .digits ∨ l.type = .period) :
    (scanNumber p (l :: ls)).2.2.length ≤ ls.length := by
  unfold scanNumber
  simp only
  have h4 := scanNumExp_rest_le (scanNumFrac (scanNumWhole p
    (scanNumSign p (l :: ls)).2.1 (scanNumSign p (l :: ls)).2.2).2.2.1
    (scanNumWhole p (scanNumSign p (l :: ls)).2.1 (scanNumSign p (l :: ls)).2.2).2.2.2).2.2.1
    (scanNumFrac (scanNumWhole p (scanNumSign p (l :: ls)).2.1
      (scanNumSign p (l :: ls)).2.2).2.2.1
      (scanNumWhole p (scanNumSign p (l :: ls)).2.1 (scanNumSign p (l :: ls)).2.2).2.2.2).2.2.2
  have h3 := scanNumFrac_rest_le (scanNumWhole p (scanNumSign p (l :: ls)).2.1
    (scanNumSign p (l :: ls)).2.2).2.2.1
    (scanNumWhole p (scanNumSign p (l :: ls)).2.1 (scanNumSign p (l :: ls)).2.2).2.2.2
  rcases h with h | h | h
  · -- leading dash is consumed by the sign stage
    have hs : scanNumSign p (l :: ls) = ([l], p + l.length, ls) := by
      simp [scanNumSign, h]
    rw [hs] at h4 h3 ⊢
    dsimp only at h4 h3 ⊢
    have h2 := scanNumWhole_rest_le p (p + l.length) ls
    omega
  · -- leading digits are consumed by the whole-digits stage
    have hs : scanNumSign p (l :: ls) = ([], p, l :: ls) := by
      simp [scanNumSign, h]
    rw [hs] at h4 h3 ⊢
    dsimp only at h4 h3 ⊢
    have hw : scanNumWhole p p (l :: ls) = ([l], [], p + l.length, ls) := by
      simp [scanNumWhole, h]
    rw [hw] at h4 h3 ⊢
    dsimp only at h4 h3 ⊢
    omega
  · -- a leading period is consumed by the fraction stage
    have hs : scanNumSign p (l :: ls) = ([], p, l :: ls) := by
      simp [scanNumSign, h]
    rw [hs] at h4 h3 ⊢
    dsimp only at h4 h3 ⊢
    have hw : scanNumWhole p p (l :: ls) =
        ([], [⟨expectedWholeMsg, p, l.length⟩], p, l :: ls) := by
      simp [scanNumWhole, h]
    rw [hw] at h4 h3 ⊢
    dsimp only at h4 h3 ⊢
    have hfr : (scanNumFrac p (l :: ls)).2.2.2.length ≤ ls.length := by
      unfold scanNumFrac
      repeat' split
      all_goals simp_all
    omega

theorem nextToken_rest_le (pos : Nat) (l : Lex) (ls : List Lex) :
    (nextToken pos l ls).2.1.length ≤ ls.length := by
  cases hl : l.type
  all_goals simp only [nextToken, hl]
  case letters =>
    repeat' split
    all_goals simp
  case singleQuote => exact scanQuoted_rest_le _ _ _
  case doubleQuote => exact scanQuoted_rest_le _ _ _
  case space => exact length_dropWhile_le' _ _
  case tab => exact length_dropWhile_le' _ _
  case carriageReturn => exact length_dropWhile_le' _ _
  case dash => exact scanNumber_rest_le _ _ _ (Or.inl hl)
  case digits => exact scanNumber_rest_le _ _ _ (Or.inr (Or.inl hl))
  case period => exact scanNumber_rest_le _ _ _ (Or.inr (Or.inr hl))
  case forwardSlash =>
    match ls with
    | [] => simp
    | m :: ms =>
      simp only
      split
      · simp only [List.length_cons]
        exact Nat.le_succ_of_le (length_dropWhile_le' _ _)
      · split
        · simp only [List.length_cons]
          exact Nat.le_succ_of_le (scanBlock_rest_le _)
        · simp
  all_goals simp

/-- The whole tokenizer: repeatedly pull tokens, threading the position and
collecting issues in emission order, as driving `Tokenizer.next` to
exhaustion does. -/
def tokenize (pos : Nat) : List Lex → List Token × List Issue
  | [] => ([], [])
  | l :: ls =>
    let r := nextToken pos l ls
    let r2 := tokenize (pos + r.1.length) r.2.1
    (r.1 :: r2.1, r.2.2 ++ r2.2)
  termination_by ls => ls.length
  decreasing_by
    exact Nat.lt_succ_of_le (nextToken_rest_le pos l ls)

theorem scanQuoted_text (q : LexType) (e : Bool) (ls : List Lex) :
    lexesText (scanQuoted q e ls).1 ++ lexesText (scanQuoted q e ls).2.2 = lexesText ls := by
  induction ls generalizing e with
  | nil => simp [scanQuoted, lexesText]
  | cons l ls ih =>
    simp only [scanQuoted]
    repeat' split
    all_goals simp [lexesText, ih]

theorem scanBlock_text (ls : List Lex) :
    lexesText (scanBlock ls).1 ++ lexesText (scanBlock ls).2 = lexesText ls := by
  induction ls using scanBlock.induct
  all_goals rw [scanBlock.eq_def]
  all_goals repeat' split
  all_goals simp_all [lexesText]

theorem scanNumSign_text (p : Nat) (ls : List Lex) :
    lexesText (scanNumSign p ls).1 ++ lexesText (scanNumSign p ls).2.2 = lexesText ls := by
  unfold scanNumSign
  repeat' split
  all_goals simp [lexesText]

theorem scanNumWhole_text (n p : Nat) (ls : List Lex) :
    lexesText (scanNumWhole n p ls).1 ++ lexesText (scanNumWhole n p ls).2.2.2 = lexesText ls := by
  unfold scanNumWhole
  repeat' split
  all_goals simp [lexesText]

theorem scanNumFrac_text (p : Nat) (ls : List Lex) :
    lexesText (scanNumFrac p ls).1 ++ lexesText (scanNumFrac p ls).2.2.2 = lexesText ls := by
  unfold scanNumFrac
  repeat' split
  all_goals simp [lexesText]

theorem scanNumExp_text (p : Nat) (ls : List Lex) :
    lexesText (scanNumExp p ls).1 ++ lexesText (scanNumExp p ls).2.2 = lexesText ls := by
  unfold scanNumExp
  repeat' split
  all_goals simp [lexesText]

theorem scanNumber_text (p : Nat) (ls : List Lex) :
    lexesText (scanNumber p ls).1 ++ lexesText (scanNumber p ls).2.2 = lexesText ls := by
  unfold scanNumber
  dsimp only
  rw [lexesText_append, lexesText_append, lexesText_append]
  have h1 := scanNumSign_text p ls
  have h2 := scanNumWhole_text p (scanNumSign p ls).2.1 (scanNumSign p ls).2.2
  have h3 := scanNumFrac_text (scanNumWhole p (scanNumSign p ls).2.1
    (scanNumSign p ls).2.2).2.2.1
    (scanNumWhole p (scanNumSign p ls).2.1 (scanNumSign p ls).2.2).2.2.2
  have h4 := scanNumExp_text (scanNumFrac (scanNumWhole p (scanNumSign p ls).2.1
      (scanNumSign p ls).2.2).2.2.1
      (scanNumWhole p (scanNumSign p ls).2.1 (scanNumSign p ls).2.2).2.2.2).2.2.1
    (scanNumFrac (scanNumWhole p (scanNumSign p ls).2.1
      (scanNumSign p ls).2.2).2.2.1
      (scanNumWhole p (scanNumSign p ls).2.1 (scanNumSign p ls).2.2).2.2.2).2.2.2
  rw [List.append_assoc, List.append_assoc, h4, h3, List.append_assoc, h2, h1]

theorem nextToken_text (pos : Nat) (l : Lex) (ls : List Lex) :
    (nextToken pos l ls).1.text ++ lexesText (nextToken pos l ls).2.1 = lexesText (l :: ls) := by
  cases hl : l.type
  all_goals simp only [nextToken, hl]
  case letters =>
    repeat' split
    all_goals simp [Token.text, lexesText]
  case singleQuote =>
    have h := scanQuoted_text .singleQuote false ls
    simp only [Token.text, lexesText]
    rw [List.append_assoc, h]
  case doubleQuote =>
    have h := scanQuoted_text .doubleQuote false ls
    simp only [Token.text, lexesText]
    rw [List.append_assoc, h]
  case space =>
    simp only [Token.text, lexesText]
    rw [List.append_assoc]
    congr 1
    rw [← lexesText_append, List.takeWhile_append_dropWhile]
  case tab =>
    simp only [Token.text, lexesText]
    rw [List.append_assoc]
    congr 1
    rw [← lexesText_append, List.takeWhile_append_dropWhile]
  case carriageReturn =>
    simp only [Token.text, lexesText]
    rw [List.append_assoc]
    congr 1
    rw [← lexesText_append, List.takeWhile_append_dropWhile]
  case dash => exact scanNumber_text pos (l :: ls)
  case digits => exact scanNumber_text pos (l :: ls)
  case period => exact scanNumber_text pos (l :: ls)
  case forwardSlash =>
    match ls with
    | [] => simp [Token.text, lexesText]
    | m :: ms =>
      simp only
      split
      · simp only [Token.text, lexesText]
        rw [List.append_assoc, List.append_assoc]
        congr 2
        rw [← lexesText_append, List.takeWhile_append_dropWhile]
      · split
        · have h := scanBlock_text ms
          simp only [Token.text, lexesText]
          rw [List.append_assoc, List.append_assoc, h]
        · simp [Token.text, lexesText]
  all_goals simp [Token.text, lexesText]

/-- Concatenated original text of a list of tokens. -/
def tokensText : List Token → List Char
  | [] => []
  | t :: ts => t.text ++ tokensText ts

theorem tokensText_append (a b : List Token) :
    tokensText (a ++ b) = tokensText a ++ tokensText b := by
  induction a with
  | nil => simp [tokensText]
  | cons t ts ih => simp [tokensText, ih]

/-- The tokenizer loses no text: concatenating the tokens reproduces the
concatenated lexemes. -/
theorem tokenize_text (pos : Nat) (ls : List Lex) :
    tokensText (tokenize pos ls).1 = lexesText ls := by
  induction pos, ls using tokenize.induct with
  | case1 pos => simp [tokenize, tokensText, lexesText]
  | case2 pos l ls r ih =>
    rw [tokenize]
    simp only [tokensText]
    rw [ih, nextToken_text]

/-- The segment tree: a Token leaf, or a Property / ObjectSegment /
ArraySegment composite owning an ordered list of child segments.
The source's open class hierarchy is closed here as a sum type. -/
inductive Segment where
  | token (t : Token)
  | property (segs : List Segment)
  | objectSegment (segs : List Segment)
  | arraySegment (segs : List Segment)

mutual

/-- Boolean equality on segments (decidable equality is not auto-derived for
a nested inductive type). -/
def Segment.beq : Segment → Segment → Bool
  | .token a, .token b => a == b
  | .property a, .property b => Segment.beqList a b
  | .objectSegment a, .objectSegment b => Segment.beqList a b
  | .arraySegment a, .arraySegment b => Segment.beqList a b
  | _, _ => false

def Segment.beqList : List Segment → List Segment → Bool
  | [], [] => true
  | a :: as, b :: bs => Segment.beq a b && Segment.beqList as bs
  | _, _ => false

end

mutual

theorem Segment.beq_iff : (a b : Segment) → (Segment.beq a b = true ↔ a = b)
  | .token a, .token b => by simp [Segment.beq]
  | .property a, .property b => by
    simp only [Segment.beq, Segment.property.injEq]
    exact Segment.beqList_iff a b
  | .objectSegment a, .objectSegment b => by
    simp only [Segment.beq, Segment.objectSegment.injEq]
    exact Segment.beqList_iff a b
  | .arraySegment a, .arraySegment b => by
    simp only [Segment.beq, Segment.arraySegment.injEq]
    exact Segment.beqList_iff a b
  | .token a, .property b => by simp [Segment.beq]
  | .token a, .objectSegment b => by simp [Segment.beq]
  | .token a, .arraySegment b => by simp [Segment.beq]
  | .property a, .token b => by simp [Segment.beq]
  | .property a, .objectSegment b => by simp [Segment.beq]
  | .property a, .arraySegment b => by simp [Segment.beq]
  | .objectSegment a, .token b => by simp [Segment.beq]
  | .objectSegment a, .property b => by simp [Segment.beq]
  | .objectSegment a, .arraySegment b => by simp [Segment.beq]
  | .arraySegment a, .token b => by simp [Segment.beq]
  | .arraySegment a, .property b => by simp [Segment.beq]
  | .arraySegment a, .objectSegment b => by simp [Segment.beq]

theorem Segment.beqList_iff : (a b : List Segment) → (Segment.beqList a b = true ↔ a = b)
  | [], [] => by simp [Segment.beqList]
  | a :: as, b :: bs => by
    simp only [Segment.beqList, Bool.and_eq_true, List.cons.injEq]
    exact and_congr (Segment.beq_iff a b) (Segment.beqList_iff as bs)
  | [], b :: bs => by simp [Segment.beqList]
  | a :: as, [] => by simp [Segment.beqList]

end

instance : DecidableEq Segment := fun a b => decidable_of_iff _ (Segment.beq_iff a b)

mutual

/-- Original text of a segment (`Segment.toString`): a token's text, or the
concatenation of the children's text for a composite. -/
def segText : Segment → List Char
  | .token t => t.text
  | .property ss => segsText ss
  | .objectSegment ss => segsText ss
  | .arraySegment ss => segsText ss

/-- Concatenated original text of a list of segments. -/
def segsText : List Segment → List Char
  | [] => []
  | s :: ss => segText s ++ segsText ss

end

/-- Start index of a segment: a token's start, or the first child's start
for a composite.  Constructing a composite from an empty child list is a
fatal programmer error in the source and never happens in parser output;
the placeholder value 0 stands in for that impossible case. -/
def segStart : Segment → Nat
  | .token t => t.start
  | .property ss => match ss with | [] => 0 | s :: _ => segStart s
  | .objectSegment ss => match ss with | [] => 0 | s :: _ => segStart s
  | .arraySegment ss => match ss with | [] => 0 | s :: _ => segStart s

/-- Character length of a segment (`Segment.getLength`); for parser-built
segments the children are contiguous, so the contiguous length of the
source equals the text length. -/
def segLength (s : Segment) : Nat := (segText s).length

/-- Parser issue messages. -/
def missingColonMsg : String := "Missing colon (\":\")."

def expectedColonMsg : String := "Expected colon (\":\")."

def missingPropertyValueMsg : String := "Missing property value."

def expectedPropertyValueMsg : String := "Expected property value."

def expectedCommaOrRcbMsg : String :=
  "Expected comma (\",\") or closing right curly bracket (\"\x7d\")."

def expectedPropertyNameMsg : String := "Expected property name."

def expectedPropertyNameOrRcbMsg : String :=
  "Expected property name or closing right curly bracket (\"\x7d\")."

def missingRcbMsg : String := "Missing closing right curly bracket (\"\x7d\")."

def expectedCommaOrRsbMsg : String :=
  "Expected comma (\",\") or closing right square bracket (\"]\")."

def expectedArrayElementMsg : String := "Expected array element."

def expectedArrayElementOrRsbMsg : String :=
  "Expected array element or closing right square bracket (\"]\")."

def missingRsbMsg : String := "Missing closing right square bracket (\"]\")."

def expectedEofMsg : String := "Expected end of file."

/-- An issue anchored at a token's span. -/
def issueAt (msg : String) (t : Token) : Issue := ⟨msg, t.start, t.length⟩

def isWsTok (t : Token) : Bool := t.type = .whitespace

def isTriviaTok (t : Token) : Bool :=
  t.type = .newLine ∨ t.type = .whitespace ∨ t.type = .lineComment ∨ t.type = .blockComment

mutual

/-- `parseProperty`: the tokenizer's current token is the QuotedString name
token `nameTok`.  Skip whitespace, require a colon, skip whitespace, require
a value (literal token, or a nested object or array).  The fuel argument only
bounds recursion depth; with enough fuel it never runs out. -/
def parseProperty (fuel : Nat) (nameTok : Token) (ts : List Token) :
    Segment × List Token × List Issue :=
  match fuel with
  | 0 => (.property [.token nameTok], ts, [])
  | fuel + 1 =>
    let ws1 := ts.takeWhile isWsTok
    let ts1 := ts.dropWhile isWsTok
    let segs1 := Segment.token nameTok :: ws1.map Segment.token
    match ts1 with
    | [] => (.property segs1, [], [issueAt missingColonMsg nameTok])
    | colonTok :: ts2 =>
      if colonTok.type = .colon then
        let ws2 := ts2.takeWhile isWsTok
        let ts3 := ts2.dropWhile isWsTok
        let segs2 := segs1 ++ [Segment.token colonTok] ++ ws2.map Segment.token
        match ts3 with
        | [] => (.property segs2, [], [issueAt missingPropertyValueMsg colonTok])
        | v :: ts4 =>
          match v.type with
          | .falseKeyword => (.property (segs2 ++ [.token v]), ts4, [])
          | .trueKeyword => (.property (segs2 ++ [.token v]), ts4, [])
          | .nullKeyword => (.property (segs2 ++ [.token v]), ts4, [])
          | .quotedString => (.property (segs2 ++ [.token v]), ts4, [])
          | .number => (.property (segs2 ++ [.token v]), ts4, [])
          | .leftCurlyBracket =>
            let r := parseObject fuel v ts4
            (.property (segs2 ++ [r.1]), r.2.1, r.2.2)
          | .leftSquareBracket =>
            let r := parseArray fuel v ts4
            (.property (segs2 ++ [r.1]), r.2.1, r.2.2)
          | _ => (.property segs2, v :: ts4, [issueAt expectedPropertyValueMsg v])
      else
        (.property segs1, colonTok :: ts2, [issueAt expectedColonMsg colonTok])

/-- `parseObject`: the current token is the LeftCurlyBracket `lcb`.  Run the
recovery loop; if no closing bracket was found, issue "Missing closing right
curly bracket" anchored at the opening bracket. -/
def parseObject (fuel : Nat) (lcb : Token) (ts : List Token) :
    Segment × List Token × List Issue :=
  match fuel with
  | 0 => (.objectSegment [.token lcb], ts, [])
  | fuel + 1 =>
    let r := objectLoop fuel true false true ts
    (.objectSegment (.token lcb :: r.1), r.2.2.1,
      r.2.2.2 ++ if r.2.1 then [] else [issueAt missingRcbMsg lcb])

/-- The object recovery loop with its three flags `propertyNameAllowed`,
`commaAllowed`, `rightCurlyBracketAllowed`.  Returns the consumed child
segments, whether a closing bracket was found, the rest, and the issues. -/
def objectLoop (fuel : Nat) (pna ca rcba : Bool) (ts : List Token) :
    List Segment × Bool × List Token × List Issue :=
  match fuel with
  | 0 => ([], false, ts, [])
  | fuel + 1 =>
    match ts with
    | [] => ([], false, [], [])
    | t :: ts1 =>
      match t.type with
      | .quotedString =>
        let pre : List Issue := if pna then [] else [issueAt expectedCommaOrRcbMsg t]
        let rp := parseProperty fuel t ts1
        let rl := objectLoop fuel false true true rp.2.1
        (rp.1 :: rl.1, rl.2.1, rl.2.2.1, pre ++ rp.2.2 ++ rl.2.2.2)
      | .rightCurlyBracket =>
        ([.token t], true, ts1, if rcba then [] else [issueAt expectedPropertyNameMsg t])
      | .newLine =>
        let rl := objectLoop fuel pna ca rcba ts1
        (.token t :: rl.1, rl.2.1, rl.2.2.1, rl.2.2.2)
      | .whitespace =>
        let rl := objectLoop fuel pna ca rcba ts1
        (.token t :: rl.1, rl.2.1, rl.2.2.1, rl.2.2.2)
      | .lineComment =>
        let rl := objectLoop fuel pna ca rcba ts1
        (.token t :: rl.1, rl.2.1, rl.2.2.1, rl.2.2.2)
      | .blockComment =>
        let rl := objectLoop fuel pna ca rcba ts1
        (.token t :: rl.1, rl.2.1, rl.2.2.1, rl.2.2.2)
      | .comma =>
        let iss : List Issue :=
          if ca then []
          else if ¬ rcba then [issueAt expectedPropertyNameMsg t]
          else [issueAt expectedPropertyNameOrRcbMsg t]
        let rl := objectLoop fuel true false false ts1
        (.token t :: rl.1, rl.2.1, rl.2.2.1, iss ++ rl.2.2.2)
      | _ =>
        let iss : List Issue :=
          if pna then
            if rcba then [issueAt expectedPropertyNameOrRcbMsg t]
            else [issueAt expectedPropertyNameMsg t]
          else [issueAt expectedCommaOrRcbMsg t]
        let rcba2 := if pna ∧ ¬ rcba then true else rcba
        let rl := objectLoop fuel pna ca rcba2 ts1
        (.token t :: rl.1, rl.2.1, rl.2.2.1, iss ++ rl.2.2.2)

/-- `parseArray`: the current token is the LeftSquareBracket `lsb`. -/
def parseArray (fuel : Nat) (lsb : Token) (ts : List Token) :
    Segment × List Token × List Issue :=
  match fuel with
  | 0 => (.arraySegment [.token lsb], ts, [])
  | fuel + 1 =>
    let r := arrayLoop fuel true false true ts
    (.arraySegment (.token lsb :: r.1), r.2.2.1,
      r.2.2.2 ++ if r.2.1 then [] else [issueAt missingRsbMsg lsb])

/-- The array recovery loop with its three flags `arrayElementAllowed`,
`commaAllowed`, `rightSquareBracketAllowed`. -/
def arrayLoop (fuel : Nat) (aea ca rsba : Bool) (ts : List Token) :
    List Segment × Bool × List Token × List Issue :=
  match fuel with
  | 0 => ([], false, ts, [])
  | fuel + 1 =>
    match ts with
    | [] => ([], false, [], [])
    | t :: ts1 =>
      match t.type with
      | .nullKeyword =>
        let iss : List Issue := if aea then [] else [issueAt expectedCommaOrRsbMsg t]
        let rl := arrayLoop fuel false true true ts1
        (.token t :: rl.1, rl.2.1, rl.2.2.1, iss ++ rl.2.2.2)
      | .trueKeyword =>
        let iss : List Issue := if aea then [] else [issueAt expectedCommaOrRsbMsg t]
        let rl := arrayLoop fuel false true true ts1
        (.token t :: rl.1, rl.2.1, rl.2.2.1, iss ++ rl.2.2.2)
      | .falseKeyword =>
        let iss : List Issue := if aea then [] else [issueAt expectedCommaOrRsbMsg t]
        let rl := arrayLoop fuel false true true ts1
        (.token t :: rl.1, rl.2.1, rl.2.2.1, iss ++ rl.2.2.2)
      | .quotedString =>
        let iss : List Issue := if aea then [] else [issueAt expectedCommaOrRsbMsg t]
        let rl := arrayLoop fuel false true true ts1
        (.token t :: rl.1, rl.2.1, rl.2.2.1, iss ++ rl.2.2.2)
      | .number =>
        let iss : List Issue := if aea then [] else [issueAt expectedCommaOrRsbMsg t]
        let rl := arrayLoop fuel false true true ts1
        (.token t :: rl.1, rl.2.1, rl.2.2.1, iss ++ rl.2.2.2)
      | .leftCurlyBracket =>
        let iss : List Issue := if aea then [] else [issueAt expectedCommaOrRsbMsg t]
        let ro := parseObject fuel t ts1
        let rl := arrayLoop fuel false true true ro.2.1
        (ro.1 :: rl.1, rl.2.1, rl.2.2.1, iss ++ ro.2.2 ++ rl.2.2.2)
      | .leftSquareBracket =>
        let iss : List Issue := if aea then [] else [issueAt expectedCommaOrRsbMsg t]
        let ra := parseArray fuel t ts1
        let rl := arrayLoop fuel false true true ra.2.1
        (ra.1 :: rl.1, rl.2.1, rl.2.2.1, iss ++ ra.2.2 ++ rl.2.2.2)
      | .comma =>
        let iss : List Issue :=
          if ca then []
          else if rsba then [issueAt expectedArrayElementOrRsbMsg t]
          else [issueAt expectedArrayElementMsg t]
        let rl := arrayLoop fuel true false false ts1
        (.token t :: rl.1, rl.2.1, rl.2.2.1, iss ++ rl.2.2.2)
      | .rightSquareBracket =>
        ([.token t], true, ts1, if rsba then [] else [issueAt expectedArrayElementMsg t])
      | .newLine =>
        let rl := arrayLoop fuel aea ca rsba ts1
        (.token t :: rl.1, rl.2.1, rl.2.2.1, rl.2.2.2)
      | .whitespace =>
        let rl := arrayLoop fuel aea ca rsba ts1
        (.token t :: rl.1, rl.2.1, rl.2.2.1, rl.2.2.2)
      | .lineComment =>
        let rl := arrayLoop fuel aea ca rsba ts1
        (.token t :: rl.1, rl.2.1, rl.2.2.1, rl.2.2.2)
      | .blockComment =>
        let rl := arrayLoop fuel aea ca rsba ts1
        (.token t :: rl.1, rl.2.1, rl.2.2.1, rl.2.2.2)
      | _ =>
        let iss : List Issue :=
          if aea then
            if rsba then [issueAt expectedArrayElementOrRsbMsg t]
            else [issueAt expectedArrayElementMsg t]
          else [issueAt expectedCommaOrRsbMsg t]
        let rl := arrayLoop fuel false true true ts1
        (.token t :: rl.1, rl.2.1, rl.2.2.1, iss ++ rl.2.2.2)

end

/-- `parseSegment`: dispatch on the current token. -/
def parseSegment (fuel : Nat) (t : Token) (ts : List Token) :
    Segment × List Token × List Issue :=
  match t.type with
  | .leftCurlyBracket => parseObject fuel t ts
  | .leftSquareBracket => parseArray fuel t ts
  | _ => (.token t, ts, [])

/-- Whether a segment establishes or conflicts with the document root in
`parse`: objects, arrays, and tokens other than NewLine and Whitespace.
A Property can never reach this check from `parseSegment`; in the source it
would fall into the issue-raising default branch, so it is eligible here. -/
def rootEligible : Segment → Bool
  | .objectSegment _ => true
  | .arraySegment _ => true
  | .property _ => true
  | .token t => ¬ (t.type = .newLine ∨ t.type = .whitespace)

/-- Top-level loop of `parse`: parse segments until exhaustion, appending all
of them; the first root-eligible segment establishes the root, every later
root-eligible segment issues "Expected end of file." anchored at its span. -/
def parseDoc (fuel : Nat) (foundRoot : Bool) (ts : List Token) :
    List Segment × List Issue :=
  match fuel with
  | 0 => (ts.map Segment.token, [])
  | fuel + 1 =>
    match ts with
    | [] => ([], [])
    | t :: ts1 =>
      let r := parseSegment fuel t ts1
      let eof : List Issue :=
        if rootEligible r.1 ∧ foundRoot then [⟨expectedEofMsg, segStart r.1, segLength r.1⟩]
        else []
      let rd := parseDoc fuel (foundRoot ∨ rootEligible r.1) r.2.1
      (r.1 :: rd.1, r.2.2 ++ eof ++ rd.2)

/-- A parsed JSON document: the ordered list of top-level segments. -/
structure Document where
  segments : List Segment
  deriving DecidableEq

/-- `Document.getRoot`: the first segment that is an object, an array, or a
token other than NewLine and Whitespace. -/
def Document.getRoot (d : Document) : Option Segment := d.segments.find? rootEligible

/-- `Document.toString`: the original text of the whole document. -/
def Document.toString (d : Document) : List Char := segsText d.segments

/-- `parse`: lex and tokenize the text, then run the document loop.  The fuel
passed to the parser is more than enough for the recursion depth (which
consumes at least one token for every two fuel units).  In the source the
tokenizer and the parser share one lazily-driven issue sink; its contents
are here the tokenizer issues followed by the parser issues, which agrees
with the source whenever one of the two lists is empty. -/
def parse (s : List Char) : Document × List Issue :=
  let tk := tokenize 0 (lexer s)
  let pd := parseDoc (2 * tk.1.length + 3) false tk.1
  (⟨pd.1⟩, tk.2 ++ pd.2)

/-- The walk of `ArraySegment.getElements`: each nested object or array and
each literal token becomes an element; a comma not following a completed
element contributes an empty slot (`none`); other tokens are skipped.
Returns the elements and the final `expectingComma` flag.  A Property child
would make the source cast-and-dispatch fail; parser-built arrays never
contain one, and it is skipped here. -/
def elementsWalk (expectingComma : Bool) : List Segment → List (Option Segment) × Bool
  | [] => ([], expectingComma)
  | s :: rest =>
    match s with
    | .objectSegment ss =>
      let r := elementsWalk true rest
      (some (.objectSegment ss) :: r.1, r.2)
    | .arraySegment ss =>
      let r := elementsWalk true rest
      (some (.arraySegment ss) :: r.1, r.2)
    | .property _ => elementsWalk expectingComma rest
    | .token t =>
      match t.type with
      | .falseKeyword =>
        let r := elementsWalk true rest
        (some s :: r.1, r.2)
      | .nullKeyword =>
        let r := elementsWalk true rest
        (some s :: r.1, r.2)
      | .number =>
        let r := elementsWalk true rest
        (some s :: r.1, r.2)
      | .quotedString =>
        let r := elementsWalk true rest
        (some s :: r.1, r.2)
      | .trueKeyword =>
        let r := elementsWalk true rest
        (some s :: r.1, r.2)
      | .comma =>
        if expectingComma then elementsWalk false rest
        else
          let r := elementsWalk expectingComma rest
          (none :: r.1, r.2)
      | _ => elementsWalk expectingComma rest

/-- `ArraySegment.getElements` applied to the array's child segments: walk
the children with `expectingComma` initially false; if any element was
produced and the walk does not end expecting a comma, a trailing empty slot
is appended. -/
def getElements (segs : List Segment) : List (Option Segment) :=
  let w := elementsWalk false segs
  if w.1 ≠ [] ∧ w.2 = false then w.1 ++ [none] else w.1

/-- `ObjectSegment.getProperties`: the Property children, in order. -/
def getProperties (segs : List Segment) : List Segment :=
  segs.filter fun s => match s with | .property _ => true | _ => false

def isTokType (s : Segment) (ty : TokenType) : Bool :=
  match s with
  | .token t => t.type = ty
  | _ => false

/-- Leading output of the non-verbatim default case of the object and array
formatters: a fixed two-space indent after a NewLine; otherwise one space
unless the previous significant segment is the opening bracket token. -/
def bracketIndent (openBracket : TokenType) (prev : Option Segment) : List Char :=
  match prev with
  | some (.token t) =>
    if t.type = .newLine then [' ', ' ']
    else if t.type = openBracket then []
    else [' ']
  | some _ => [' ']
  | none => [' ']

/-- Two-space indent after a NewLine, used before non-token children. -/
def newLineIndent (prev : Option Segment) : List Char :=
  match prev with
  | some (.token t) => if t.type = .newLine then [' ', ' '] else []
  | _ => []

mutual

/-- `Segment.format`: canonical pretty-printed text.  Tokens format as their
verbatim text. -/
def segFormat : Segment → List Char
  | .token t => t.text
  | .property ss => propFormatLoop ss
  | .objectSegment ss => objFormatLoop none ss
  | .arraySegment ss => arrFormatLoop none ss

/-- `Property.format`: concatenate the non-Whitespace children's format,
inserting one space right after a Colon that is not the last child. -/
def propFormatLoop : List Segment → List Char
  | [] => []
  | s :: rest =>
    if isTokType s .whitespace then propFormatLoop rest
    else
      let tail := propFormatLoop rest
      segFormat s ++
        (if isTokType s .colon then
          match rest with
          | [] => tail
          | _ :: _ => ' ' :: tail
        else tail)

/-- `ObjectSegment.format`: NewLine, brackets and Comma verbatim (updating
the previous-significant cursor), Whitespace dropped, everything else
prefixed per `bracketIndent` / `newLineIndent`. -/
def objFormatLoop (prev : Option Segment) : List Segment → List Char
  | [] => []
  | s :: rest =>
    match s with
    | .token t =>
      match t.type with
      | .newLine => t.text ++ objFormatLoop (some s) rest
      | .leftCurlyBracket => t.text ++ objFormatLoop (some s) rest
      | .rightCurlyBracket => t.text ++ objFormatLoop (some s) rest
      | .comma => t.text ++ objFormatLoop (some s) rest
      | .whitespace => objFormatLoop prev rest
      | _ => bracketIndent .leftCurlyBracket prev ++ t.text ++ objFormatLoop (some s) rest
    | _ => newLineIndent prev ++ segFormat s ++ objFormatLoop (some s) rest

/-- `ArraySegment.format`: as for objects, with square brackets. -/
def arrFormatLoop (prev : Option Segment) : List Segment → List Char
  | [] => []
  | s :: rest =>
    match s with
    | .token t =>
      match t.type with
      | .newLine => t.text ++ arrFormatLoop (some s) rest
      | .leftSquareBracket => t.text ++ arrFormatLoop (some s) rest
      | .rightSquareBracket => t.text ++ arrFormatLoop (some s) rest
      | .comma => t.text ++ arrFormatLoop (some s) rest
      | .whitespace => arrFormatLoop prev rest
      | _ => bracketIndent .leftSquareBracket prev ++ t.text ++ arrFormatLoop (some s) rest
    | _ => newLineIndent prev ++ segFormat s ++ arrFormatLoop (some s) rest

end

/-- `Document.format`: concatenation of every child's format, in order. -/
def Document.format (d : Document) : List Char :=
  (d.segments.map segFormat).flatten

/-- Reformatting of a text: parse it and format the parsed document
(`format(parse(s))` over the source's Document.format). -/
def reformat (s : List Char) : List Char := Document.format (parse s).1

theorem segsText_append (a b : List Segment) :
    segsText (a ++ b) = segsText a ++ segsText b := by
  induction a with
  | nil => simp [segsText]
  | cons s ss ih => simp [segsText, ih]

theorem segsText_map_token (ws : List Token) :
    segsText (ws.map Segment.token) = tokensText ws := by
  induction ws with
  | nil => simp [segsText, tokensText]
  | cons t ts ih => simp [segsText, tokensText, segText, ih]

theorem tokensText_takeWhile_dropWhile (p : Token → Bool) (ts : List Token) :
    tokensText (ts.takeWhile p) ++ tokensText (ts.dropWhile p) = tokensText ts := by
  rw [← tokensText_append, List.takeWhile_append_dropWhile]

/-- Text preservation of every parser function, proved simultaneously: the
text of the produced segments followed by the text of the unconsumed tokens
is the text of the input tokens (with the explicitly passed head token in
front for the functions that take one). -/
theorem parserText (fuel : Nat) :
    (∀ nameTok ts, segText (parseProperty fuel nameTok ts).1 ++
        tokensText (parseProperty fuel nameTok ts).2.1 = nameTok.text ++ tokensText ts) ∧
    (∀ lcb ts, segText (parseObject fuel lcb ts).1 ++
        tokensText (parseObject fuel lcb ts).2.1 = lcb.text ++ tokensText ts) ∧
    (∀ pna ca rcba ts, segsText (objectLoop fuel pna ca rcba ts).1 ++
        tokensText (objectLoop fuel pna ca rcba ts).2.2.1 = tokensText ts) ∧
    (∀ lsb ts, segText (parseArray fuel lsb ts).1 ++
        tokensText (parseArray fuel lsb ts).2.1 = lsb.text ++ tokensText ts) ∧
    (∀ aea ca rsba ts, segsText (arrayLoop fuel aea ca rsba ts).1 ++
        tokensText (arrayLoop fuel aea ca rsba ts).2.2.1 = tokensText ts) := by
  induction fuel with
  | zero =>
    refine ⟨?_, ?_, ?_, ?_, ?_⟩ <;>
      intros <;>
      simp [parseProperty, parseObject, objectLoop, parseArray, arrayLoop,
        segText, segsText, tokensText]
  | succ fuel ih =>
    obtain ⟨ihp, iho, ihol, iha, ihal⟩ := ih
    have hol : ∀ pna ca rcba ts, segsText (objectLoop (fuel + 1) pna ca rcba ts).1 ++
        tokensText (objectLoop (fuel + 1) pna ca rcba ts).2.2.1 = tokensText ts := by
      intro pna ca rcba ts
      match ts with
      | [] => simp [objectLoop, segsText, tokensText]
      | t :: ts1 =>
        rw [objectLoop]
        cases h : t.type
        all_goals simp only
        case quotedString =>
          simp only [segsText, segsText_append, tokensText]
          rw [List.append_assoc, ihol, ihp]
        case rightCurlyBracket =>
          simp [segsText, segText, tokensText]
        all_goals
          simp only [segsText, segText, tokensText, List.append_assoc, ihol]
    have hal : ∀ aea ca rsba ts, segsText (arrayLoop (fuel + 1) aea ca rsba ts).1 ++
        tokensText (arrayLoop (fuel + 1) aea ca rsba ts).2.2.1 = tokensText ts := by
      intro aea ca rsba ts
      match ts with
      | [] => simp [arrayLoop, segsText, tokensText]
      | t :: ts1 =>
        rw [arrayLoop]
        cases h : t.type
        all_goals simp only
        case leftCurlyBracket =>
          simp only [segsText, segsText_append, tokensText]
          rw [List.append_assoc, ihal, iho]
        case leftSquareBracket =>
          simp only [segsText, segsText_append, tokensText]
          rw [List.append_assoc, ihal, iha]
        case rightSquareBracket =>
          simp [segsText, segText, tokensText]
        all_goals
          simp only [segsText, segText, tokensText, List.append_assoc, ihal]
    refine ⟨?_, ?_, hol, ?_, hal⟩
    · intro nameTok ts
      rw [parseProperty]
      simp only
      rw [← tokensText_takeWhile_dropWhile isWsTok ts]
      cases hts : ts.dropWhile isWsTok with
      | nil =>
        simp [segText, segsText, segsText_map_token, tokensText]
      | cons colonTok ts2 =>
        simp only [tokensText]
        split
        · rw [← tokensText_takeWhile_dropWhile isWsTok ts2]
          cases hts3 : ts2.dropWhile isWsTok with
          | nil =>
            simp [segText, segsText, segsText_append, segsText_map_token, tokensText]
          | cons v ts4 =>
            simp only [tokensText]
            cases hv : v.type
            all_goals
              simp only [List.append_eq, segText, segsText, segsText_append,
                segsText_map_token, tokensText, List.append_assoc, List.append_nil]
            case leftCurlyBracket => rw [iho]; simp
            case leftSquareBracket => rw [iha]; simp
            all_goals simp [tokensText]
        · simp [segText, segsText, segsText_map_token, tokensText, List.append_assoc]
    · intro lcb ts
      rw [parseObject]
      simp only [segText, segsText, tokensText]
      have := ihol true false true ts
      simp only [List.append_assoc] at this ⊢
      rw [this]
    · intro lsb ts
      rw [parseArray]
      simp only [segText, segsText, tokensText]
      have := ihal true false true ts
      simp only [List.append_assoc] at this ⊢
      rw [this]

theorem parseSegment_text (fuel : Nat) (t : Token) (ts : List Token) :
    segText (parseSegment fuel t ts).1 ++ tokensText (parseSegment fuel t ts).2.1 =
      t.text ++ tokensText ts := by
  unfold parseSegment
  cases h : t.type
  all_goals simp only
  case leftCurlyBracket => exact (parserText fuel).2.1 t ts
  case leftSquareBracket => exact (parserText fuel).2.2.2.1 t ts
  all_goals simp [segText]

theorem parseDoc_text (fuel : Nat) (b : Bool) (ts : List Token) :
    segsText (parseDoc fuel b ts).1 = tokensText ts := by
  induction fuel generalizing b ts with
  | zero => simp [parseDoc, segsText_map_token]
  | succ fuel ih =>
    match ts with
    | [] => simp [parseDoc, segsText, tokensText]
    | t :: ts1 =>
      rw [parseDoc]
      simp only [segsText, tokensText]
      rw [ih, parseSegment_text]

/-- Round trip: for every input, the parsed document's `toString` reproduces
the input exactly. -/
theorem parse_toString (s : List Char) : (parse s).1.toString = s := by
  unfold parse
  simp only [Document.toString]
  rw [parseDoc_text, tokenize_text, lexer_text]

/-- The parser functions never conjure tokens: the unconsumed rest is never
longer than the input token list. -/
theorem parserRest (fuel : Nat) :
    (∀ nameTok ts, (parseProperty fuel nameTok ts).2.1.length ≤ ts.length) ∧
    (∀ lcb ts, (parseObject fuel lcb ts).2.1.length ≤ ts.length) ∧
    (∀ pna ca rcba ts, (objectLoop fuel pna ca rcba ts).2.2.1.length ≤ ts.length) ∧
    (∀ lsb ts, (parseArray fuel lsb ts).2.1.length ≤ ts.length) ∧
    (∀ aea ca rsba ts, (arrayLoop fuel aea ca rsba ts).2.2.1.length ≤ ts.length) := by
  induction fuel with
  | zero =>
    refine ⟨?_, ?_, ?_, ?_, ?_⟩ <;>
      intros <;>
      simp [parseProperty, parseObject, objectLoop, parseArray, arrayLoop]
  | succ fuel ih =>
    obtain ⟨ihp, iho, ihol, iha, ihal⟩ := ih
    have hol : ∀ pna ca rcba ts, (objectLoop (fuel + 1) pna ca rcba ts).2.2.1.length ≤ ts.length := by
      intro pna ca rcba ts
      match ts with
      | [] => simp [objectLoop]
      | t :: ts1 =>
        rw [objectLoop]
        cases h : t.type
        all_goals simp only [List.length_cons]
        case quotedString =>
          calc (objectLoop fuel false true true (parseProperty fuel t ts1).2.1).2.2.1.length
              ≤ (parseProperty fuel t ts1).2.1.length := ihol _ _ _ _
            _ ≤ ts1.length := ihp _ _
            _ ≤ ts1.length + 1 := Nat.le_succ _
        all_goals
          first
          | exact Nat.le_succ _
          | exact Nat.le_succ_of_le (ihol _ _ _ _)
    have hal : ∀ aea ca rsba ts, (arrayLoop (fuel + 1) aea ca rsba ts).2.2.1.length ≤ ts.length := by
      intro aea ca rsba ts
      match ts with
      | [] => simp [arrayLoop]
      | t :: ts1 =>
        rw [arrayLoop]
        cases h : t.type
        all_goals simp only [List.length_cons]
        case leftCurlyBracket =>
          calc (arrayLoop fuel false true true (parseObject fuel t ts1).2.1).2.2.1.length
              ≤ (parseObject fuel t ts1).2.1.length := ihal _ _ _ _
            _ ≤ ts1.length := iho _ _
            _ ≤ ts1.length + 1 := Nat.le_succ _
        case leftSquareBracket =>
          calc (arrayLoop fuel false true true (parseArray fuel t ts1).2.1).2.2.1.length
              ≤ (parseArray fuel t ts1).2.1.length := ihal _ _ _ _
            _ ≤ ts1.length := iha _ _
            _ ≤ ts1.length + 1 := Nat.le_succ _
        all_goals
          first
          | exact Nat.le_succ _
          | exact Nat.le_succ_of_le (ihal _ _ _ _)
    refine ⟨?_, ?_, hol, ?_, hal⟩
    · intro nameTok ts
      rw [parseProperty]
      simp only
      have hd : (ts.dropWhile isWsTok).length ≤ ts.length := length_dropWhile_le' _ _
      cases hts : ts.dropWhile isWsTok with
      | nil => simp
      | cons colonTok ts2 =>
        rw [hts] at hd
        simp only [List.length_cons] at hd
        have hd2 : (ts2.dropWhile isWsTok).length ≤ ts2.length := length_dropWhile_le' _ _
        simp only
        split
        · cases hts3 : ts2.dropWhile isWsTok with
          | nil => simp
          | cons v ts4 =>
            rw [hts3] at hd2
            simp only [List.length_cons] at hd2
            simp only
            cases hv : v.type
            all_goals simp only
            case leftCurlyBracket =>
              have := iho v ts4
              omega
            case leftSquareBracket =>
              have := iha v ts4
              omega
            all_goals try dsimp only
            all_goals try simp only [List.length_cons]
            all_goals omega
        · dsimp only
          simp only [List.length_cons]
          omega
    · intro lcb ts
      rw [parseObject]
      exact ihol true false true ts
    · intro lsb ts
      rw [parseArray]
      exact ihal true false true ts

def isEofIssue (i : Issue) : Bool := i.message == expectedEofMsg

/-- The "Expected end of file." issues that the document loop emits, read off
from the produced segment list: one issue at the span of every root-eligible
segment after the first (`found` records whether a root was already seen). -/
def eofSpansSpec (found : Bool) : List Segment → List Issue
  | [] => []
  | s :: rest =>
    if rootEligible s then
      (if found then [⟨expectedEofMsg, segStart s, segLength s⟩] else []) ++ eofSpansSpec true rest
    else eofSpansSpec found rest

theorem missingEndQuoteMsg_ne_eof (q : Lex) : isEofIssue ⟨missingEndQuoteMsg q, 0, 0⟩ = false := by
  simp only [isEofIssue, beq_eq_false_iff_ne, ne_eq]
  intro h
  have h2 := congrArg String.data h
  rw [missingEndQuoteMsg, expectedEofMsg, String.data_append, String.data_append] at h2
  have h3 := congrArg List.head? h2
  simp at h3

theorem isEofIssue_start_irrel (m : String) (a b c d : Nat) :
    isEofIssue ⟨m, a, b⟩ = isEofIssue ⟨m, c, d⟩ := rfl

theorem scanNumber_no_eof (p : Nat) (ls : List Lex) :
    ∀ i ∈ (scanNumber p ls).2.1, isEofIssue i = false := by
  intro i hi
  simp only [scanNumber, List.mem_append] at hi
  rcases hi with (hi | hi) | hi
  · unfold scanNumWhole at hi
    revert hi
    repeat' split
    all_goals intro hi
    all_goals simp_all
    all_goals subst hi
    all_goals simp only [isEofIssue]
    all_goals decide
  · unfold scanNumFrac at hi
    revert hi
    repeat' split
    all_goals intro hi
    all_goals simp_all
    all_goals subst hi
    all_goals simp only [isEofIssue]
    all_goals decide
  · unfold scanNumExp at hi
    revert hi
    repeat' split
    all_goals intro hi
    all_goals simp_all
    all_goals try subst hi
    all_goals try rcases hi with hi | hi
    all_goals try subst hi
    all_goals simp only [isEofIssue]
    all_goals decide

theorem nextToken_no_eof (pos : Nat) (l : Lex) (ls : List Lex) :
    ∀ i ∈ (nextToken pos l ls).2.2, isEofIssue i = false := by
  intro i hi
  revert hi
  cases hl : l.type
  all_goals simp only [nextToken, hl]
  case letters =>
    repeat' split
    all_goals simp
  case singleQuote =>
    split
    · simp
    · intro hi
      simp only [List.mem_singleton] at hi
      subst hi
      exact missingEndQuoteMsg_ne_eof l
  case doubleQuote =>
    split
    · simp
    · intro hi
      simp only [List.mem_singleton] at hi
      subst hi
      exact missingEndQuoteMsg_ne_eof l
  case dash => exact fun hi => scanNumber_no_eof pos (l :: ls) i hi
  case digits => exact fun hi => scanNumber_no_eof pos (l :: ls) i hi
  case period => exact fun hi => scanNumber_no_eof pos (l :: ls) i hi
  case forwardSlash =>
    match ls with
    | [] =>
      intro hi
      simp only [List.mem_singleton] at hi
      subst hi
      simp only [isEofIssue]
      decide
    | m :: ms =>
      simp only
      split
      · simp
      · split
        · simp
        · intro hi
          simp only [List.mem_singleton] at hi
          subst hi
          simp only [isEofIssue]
          decide
  all_goals simp

theorem tokenize_no_eof (pos : Nat) (ls : List Lex) :
    ∀ i ∈ (tokenize pos ls).2, isEofIssue i = false := by
  induction pos, ls using tokenize.induct with
  | case1 pos => simp [tokenize]
  | case2 pos l ls r ih =>
    intro i hi
    rw [tokenize] at hi
    simp only [List.mem_append] at hi
    rcases hi with hi | hi
    · exact nextToken_no_eof pos l ls i hi
    · exact ih i hi

theorem eofMsgs_iss1 {c : Prop} [Decidable c] {x : Issue} (hx : isEofIssue x = false) :
    ∀ i ∈ (if c then ([] : List Issue) else [x]), isEofIssue i = false := by
  split <;> simp [hx]

theorem eofMsgs_iss2 {c d : Prop} [Decidable c] [Decidable d] {x y : Issue}
    (hx : isEofIssue x = false) (hy : isEofIssue y = false) :
    ∀ i ∈ (if c then ([] : List Issue) else if d then [x] else [y]), isEofIssue i = false := by
  split
  · simp
  · split <;> simp [hx, hy]

theorem eofMsgs_iss3 {c d : Prop} [Decidable c] [Decidable d] {x y z : Issue}
    (hx : isEofIssue x = false) (hy : isEofIssue y = false) (hz : isEofIssue z = false) :
    ∀ i ∈ (if c then if d then [x] else [y] else [z]), isEofIssue i = false := by
  split
  · split <;> simp [hx, hy]
  · simp [hz]

theorem issueAt_no_eof {msg : String} (t : Token)
    (h : (msg == expectedEofMsg) = false) : isEofIssue (issueAt msg t) = false := h

/-- No parser function other than the document loop ever emits the
"Expected end of file." issue. -/
theorem parserNoEof (fuel : Nat) :
    (∀ nameTok ts, ∀ i ∈ (parseProperty fuel nameTok ts).2.2, isEofIssue i = false) ∧
    (∀ lcb ts, ∀ i ∈ (parseObject fuel lcb ts).2.2, isEofIssue i = false) ∧
    (∀ pna ca rcba ts, ∀ i ∈ (objectLoop fuel pna ca rcba ts).2.2.2, isEofIssue i = false) ∧
    (∀ lsb ts, ∀ i ∈ (parseArray fuel lsb ts).2.2, isEofIssue i = false) ∧
    (∀ aea ca rsba ts, ∀ i ∈ (arrayLoop fuel aea ca rsba ts).2.2.2, isEofIssue i = false) := by
  induction fuel with
  | zero =>
    refine ⟨?_, ?_, ?_, ?_, ?_⟩ <;>
      intros <;>
      simp_all [parseProperty, parseObject, objectLoop, parseArray, arrayLoop]
  | succ fuel ih =>
    obtain ⟨ihp, iho, ihol, iha, ihal⟩ := ih
    have hol : ∀ pna ca rcba ts, ∀ i ∈ (objectLoop (fuel + 1) pna ca rcba ts).2.2.2,
        isEofIssue i = false := by
      intro pna ca rcba ts
      match ts with
      | [] => simp [objectLoop]
      | t :: ts1 =>
        rw [objectLoop]
        cases h : t.type
        all_goals simp only [List.forall_mem_append]
        case quotedString =>
          exact ⟨⟨eofMsgs_iss1 (issueAt_no_eof t (by decide)), ihp _ _⟩, ihol _ _ _ _⟩
        case rightCurlyBracket =>
          exact eofMsgs_iss1 (issueAt_no_eof t (by decide))
        case comma =>
          exact ⟨eofMsgs_iss2 (issueAt_no_eof t (by decide)) (issueAt_no_eof t (by decide)),
            ihol _ _ _ _⟩
        case unrecognized =>
          exact ⟨eofMsgs_iss3 (issueAt_no_eof t (by decide)) (issueAt_no_eof t (by decide))
            (issueAt_no_eof t (by decide)), ihol _ _ _ _⟩
        all_goals
          first
          | exact ihol _ _ _ _
          | exact ⟨eofMsgs_iss3 (issueAt_no_eof t (by decide)) (issueAt_no_eof t (by decide))
              (issueAt_no_eof t (by decide)), ihol _ _ _ _⟩
    have hal : ∀ aea ca rsba ts, ∀ i ∈ (arrayLoop (fuel + 1) aea ca rsba ts).2.2.2,
        isEofIssue i = false := by
      intro aea ca rsba ts
      match ts with
      | [] => simp [arrayLoop]
      | t :: ts1 =>
        rw [arrayLoop]
        cases h : t.type
        all_goals simp only [List.forall_mem_append]
        case nullKeyword =>
          exact ⟨eofMsgs_iss1 (issueAt_no_eof t (by decide)), ihal _ _ _ _⟩
        case trueKeyword =>
          exact ⟨eofMsgs_iss1 (issueAt_no_eof t (by decide)), ihal _ _ _ _⟩
        case falseKeyword =>
          exact ⟨eofMsgs_iss1 (issueAt_no_eof t (by decide)), ihal _ _ _ _⟩
        case quotedString =>
          exact ⟨eofMsgs_iss1 (issueAt_no_eof t (by decide)), ihal _ _ _ _⟩
        case number =>
          exact ⟨eofMsgs_iss1 (issueAt_no_eof t (by decide)), ihal _ _ _ _⟩
        case leftCurlyBracket =>
          exact ⟨⟨eofMsgs_iss1 (issueAt_no_eof t (by decide)), iho _ _⟩, ihal _ _ _ _⟩
        case leftSquareBracket =>
          exact ⟨⟨eofMsgs_iss1 (issueAt_no_eof t (by decide)), iha _ _⟩, ihal _ _ _ _⟩
        case comma =>
          exact ⟨eofMsgs_iss2 (issueAt_no_eof t (by decide)) (issueAt_no_eof t (by decide)),
            ihal _ _ _ _⟩
        case rightSquareBracket =>
          exact eofMsgs_iss1 (issueAt_no_eof t (by decide))
        case unrecognized =>
          exact ⟨eofMsgs_iss3 (issueAt_no_eof t (by decide)) (issueAt_no_eof t (by decide))
            (issueAt_no_eof t (by decide)), ihal _ _ _ _⟩
        all_goals
          first
          | exact ihal _ _ _ _
          | exact ⟨eofMsgs_iss3 (issueAt_no_eof t (by decide)) (issueAt_no_eof t (by decide))
              (issueAt_no_eof t (by decide)), ihal _ _ _ _⟩
    refine ⟨?_, ?_, hol, ?_, hal⟩
    · intro nameTok ts
      rw [parseProperty]
      simp only
      cases hts : ts.dropWhile isWsTok with
      | nil =>
        simp only
        exact fun i hi => by
          simp only [List.mem_singleton] at hi
          subst hi
          exact issueAt_no_eof nameTok (by decide)
      | cons colonTok ts2 =>
        simp only
        split
        · cases hts3 : ts2.dropWhile isWsTok with
          | nil =>
            simp only
            exact fun i hi => by
              simp only [List.mem_singleton] at hi
              subst hi
              exact issueAt_no_eof colonTok (by decide)
          | cons v ts4 =>
            simp only
            cases hv : v.type
            all_goals simp only
            case leftCurlyBracket => exact iho _ _
            case leftSquareBracket => exact iha _ _
            all_goals
              first
              | exact List.forall_mem_singleton.mpr (issueAt_no_eof v (by decide))
              | simp
              | (simp only [List.forall_mem_singleton]
                 exact issueAt_no_eof v (by decide))
        · exact fun i hi => by
            simp only [List.mem_singleton] at hi
            subst hi
            exact issueAt_no_eof colonTok (by decide)
    · intro lcb ts
      rw [parseObject]
      simp only [List.forall_mem_append]
      refine ⟨ihol _ _ _ _, ?_⟩
      split
      · simp
      · exact fun i hi => by
          simp only [List.mem_singleton] at hi
          subst hi
          exact issueAt_no_eof lcb (by decide)
    · intro lsb ts
      rw [parseArray]
      simp only [List.forall_mem_append]
      refine ⟨ihal _ _ _ _, ?_⟩
      split
      · simp
      · exact fun i hi => by
          simp only [List.mem_singleton] at hi
          subst hi
          exact issueAt_no_eof lsb (by decide)

theorem parseSegment_no_eof (fuel : Nat) (t : Token) (ts : List Token) :
    ∀ i ∈ (parseSegment fuel t ts).2.2, isEofIssue i = false := by
  unfold parseSegment
  cases h : t.type
  all_goals simp only
  case leftCurlyBracket => exact (parserNoEof fuel).2.1 t ts
  case leftSquareBracket => exact (parserNoEof fuel).2.2.2.1 t ts
  all_goals simp

theorem parseSegment_rest (fuel : Nat) (t : Token) (ts : List Token) :
    (parseSegment fuel t ts).2.1.length ≤ ts.length := by
  unfold parseSegment
  cases h : t.type
  all_goals simp only
  case leftCurlyBracket => exact (parserRest fuel).2.1 t ts
  case leftSquareBracket => exact (parserRest fuel).2.2.2.1 t ts
  all_goals simp

theorem filter_eof_nil {l : List Issue} (h : ∀ i ∈ l, isEofIssue i = false) :
    l.filter isEofIssue = [] := by
  induction l with
  | nil => rfl
  | cons x xs ih =>
    rw [List.filter_cons]
    rw [h x (by simp)]
    simp only [Bool.false_eq_true, if_false]
    exact ih fun i hi => h i (by simp [hi])

/-- The "Expected end of file." issues emitted by the document loop are
exactly one issue per root-eligible segment after the first, at that
segment's span, in order. -/
theorem parseDoc_eof_filter (fuel : Nat) :
    ∀ (b : Bool) (ts : List Token), ts.length < fuel →
      ((parseDoc fuel b ts).2.filter isEofIssue) = eofSpansSpec b (parseDoc fuel b ts).1 := by
  induction fuel with
  | zero => intro b ts h; omega
  | succ fuel ih =>
    intro b ts h
    match ts with
    | [] => simp [parseDoc, eofSpansSpec]
    | t :: ts1 =>
      rw [parseDoc]
      simp only [List.filter_append]
      have h1 : (parseSegment fuel t ts1).2.2.filter isEofIssue = [] :=
        filter_eof_nil (parseSegment_no_eof fuel t ts1)
      have hrest : (parseSegment fuel t ts1).2.1.length < fuel := by
        have := parseSegment_rest fuel t ts1
        simp only [List.length_cons] at h
        omega
      have h2 := ih (b ∨ rootEligible (parseSegment fuel t ts1).1)
        (parseSegment fuel t ts1).2.1 hrest
      rw [h1, h2]
      simp only [eofSpansSpec, List.nil_append]
      cases hE : rootEligible (parseSegment fuel t ts1).1 <;> cases b <;>
        simp [hE, List.filter, isEofIssue]

/-- The "Expected end of file." issues of a full parse are exactly one per
root-eligible segment after the first; the tokenizer and the inner parser
functions never emit that message. -/
theorem parse_eof_filter (s : List Char) :
    ((parse s).2.filter isEofIssue) = eofSpansSpec false (parse s).1.segments := by
  unfold parse
  simp only [List.filter_append]
  rw [filter_eof_nil (tokenize_no_eof 0 (lexer s))]
  rw [parseDoc_eof_filter _ false _ (by omega)]
  simp

/-- `getRoot` returns the first root-eligible segment. -/
theorem getRoot_first (d : Document) :
    d.getRoot = (d.segments.filter rootEligible).head? := by
  unfold Document.getRoot
  induction d.segments with
  | nil => rfl
  | cons s ss ih =>
    rw [List.find?_cons, List.filter_cons]
    cases hE : rootEligible s
    · simpa using ih
    · simp

theorem scanQuoted_rest_suffix (q : LexType) (e : Bool) (ls : List Lex) :
    (scanQuoted q e ls).2.2 <:+ ls := by
  induction ls generalizing e with
  | nil => simp [scanQuoted]
  | cons l ls ih =>
    simp only [scanQuoted]
    repeat' split
    all_goals
      first
      | exact (ih _).trans (List.suffix_cons _ _)
      | exact List.suffix_cons _ _

theorem scanBlock_rest_suffix (ls : List Lex) : (scanBlock ls).2 <:+ ls := by
  induction ls using scanBlock.induct
  all_goals rw [scanBlock.eq_def]
  all_goals repeat' split
  all_goals simp_all
  all_goals
    first
    | exact ((List.suffix_cons _ _).trans (List.suffix_cons _ _)).trans (List.suffix_cons _ _)
    | exact (List.suffix_cons _ _).trans (List.suffix_cons _ _)
    | (apply List.IsSuffix.trans (by assumption)
       first
       | exact (List.suffix_cons _ _).trans (List.suffix_cons _ _)
       | exact List.suffix_cons _ _)

theorem scanNumSign_rest_suffix (p : Nat) (ls : List Lex) :
    (scanNumSign p ls).2.2 <:+ ls := by
  unfold scanNumSign
  repeat' split
  all_goals simp_all [List.suffix_cons]

theorem scanNumWhole_rest_suffix (n p : Nat) (ls : List Lex) :
    (scanNumWhole n p ls).2.2.2 <:+ ls := by
  unfold scanNumWhole
  repeat' split
  all_goals simp_all [List.suffix_cons]

theorem scanNumFrac_rest_suffix (p : Nat) (ls : List Lex) :
    (scanNumFrac p ls).2.2.2 <:+ ls := by
  unfold scanNumFrac
  repeat' split
  all_goals simp_all [List.suffix_cons]
  all_goals exact (List.suffix_cons _ _).trans (List.suffix_cons _ _)

theorem scanNumExp_rest_suffix (p : Nat) (ls : List Lex) :
    (scanNumExp p ls).2.2 <:+ ls := by
  unfold scanNumExp
  repeat' split
  all_goals simp_all [List.suffix_cons]
  all_goals
    first
    | exact ((List.suffix_cons _ _).trans (List.suffix_cons _ _)).trans (List.suffix_cons _ _)
    | exact (List.suffix_cons _ _).trans (List.suffix_cons _ _)

theorem scanNumber_rest_suffix (p : Nat) (ls : List Lex) :
    (scanNumber p ls).2.2 <:+ ls := by
  unfold scanNumber
  dsimp only
  exact ((((scanNumExp_rest_suffix _ _).trans (scanNumFrac_rest_suffix _ _)).trans
    (scanNumWhole_rest_suffix _ _ _)).trans (scanNumSign_rest_suffix _ _))

theorem nextToken_rest_suffix (pos : Nat) (l : Lex) (ls : List Lex) :
    (nextToken pos l ls).2.1 <:+ l :: ls := by
  cases hl : l.type
  all_goals simp only [nextToken, hl]
  case letters =>
    repeat' split
    all_goals exact List.suffix_cons _ _
  case singleQuote => exact (scanQuoted_rest_suffix _ _ _).trans (List.suffix_cons _ _)
  case doubleQuote => exact (scanQuoted_rest_suffix _ _ _).trans (List.suffix_cons _ _)
  case space => exact (List.dropWhile_suffix _).trans (List.suffix_cons _ _)
  case tab => exact (List.dropWhile_suffix _).trans (List.suffix_cons _ _)
  case carriageReturn => exact (List.dropWhile_suffix _).trans (List.suffix_cons _ _)
  case newLine => exact List.suffix_cons _ _
  case dash => exact scanNumber_rest_suffix _ _
  case digits => exact scanNumber_rest_suffix _ _
  case period => exact scanNumber_rest_suffix _ _
  case forwardSlash =>
    match ls with
    | [] => simp
    | m :: ms =>
      simp only
      split
      · exact ((List.dropWhile_suffix _).trans (List.suffix_cons _ _)).trans
          (List.suffix_cons _ _)
      · split
        · exact ((scanBlock_rest_suffix _).trans (List.suffix_cons _ _)).trans
            (List.suffix_cons _ _)
        · exact List.suffix_cons _ _
  all_goals exact List.suffix_cons _ _

/-- Whether a list of issues is in source order: non-decreasing start
positions. -/
def issuesSortedB : List Issue → Bool
  | a :: b :: rest => decide (a.start ≤ b.start) && issuesSortedB (b :: rest)
  | _ => true

theorem issuesSortedB_append {a b : List Issue} (ha : issuesSortedB a = true)
    (hb : issuesSortedB b = true)
    (hab : ∀ i ∈ a, ∀ j ∈ b, i.start ≤ j.start) :
    issuesSortedB (a ++ b) = true := by
  induction a with
  | nil => simpa using hb
  | cons x xs ih =>
    match xs, b with
    | [], [] => simpa using ha
    | [], y :: ys =>
      simp only [List.nil_append, List.cons_append, issuesSortedB, Bool.and_eq_true,
        decide_eq_true_eq]
      exact ⟨hab x (by simp) y (by simp), hb⟩
    | z :: zs, b =>
      simp only [issuesSortedB, Bool.and_eq_true, decide_eq_true_eq] at ha
      simp only [List.cons_append, issuesSortedB, Bool.and_eq_true, decide_eq_true_eq]
      refine ⟨ha.1, ?_⟩
      exact ih ha.2 fun i hi j hj => hab i (by simp [hi]) j hj

theorem lexesLength_cons (l : Lex) (ls : List Lex) :
    lexesLength (l :: ls) = l.length + lexesLength ls := by
  simp [lexesLength, lexesText, Lex.length]

theorem lexesLength_nil : lexesLength [] = 0 := rfl

theorem scanNumSign_pos (p : Nat) (ls : List Lex) :
    (scanNumSign p ls).2.1 = p + lexesLength (scanNumSign p ls).1 := by
  unfold scanNumSign
  repeat' split
  all_goals simp [lexesLength, lexesText, Lex.length]

theorem scanNumWhole_pos (n p : Nat) (ls : List Lex) :
    (scanNumWhole n p ls).2.2.1 = p + lexesLength (scanNumWhole n p ls).1 := by
  unfold scanNumWhole
  repeat' split
  all_goals simp [lexesLength, lexesText, Lex.length]

theorem scanNumFrac_pos (p : Nat) (ls : List Lex) :
    (scanNumFrac p ls).2.2.1 = p + lexesLength (scanNumFrac p ls).1 := by
  unfold scanNumFrac
  repeat' split
  all_goals simp [lexesLength, lexesText, Lex.length]
  all_goals omega

/-- Length form of the stage text-preservation lemmas. -/
theorem scanNumSign_len (p : Nat) (ls : List Lex) :
    lexesLength (scanNumSign p ls).1 + lexesLength (scanNumSign p ls).2.2 = lexesLength ls := by
  have := congrArg List.length (scanNumSign_text p ls)
  simpa [lexesLength] using this

theorem scanNumWhole_len (n p : Nat) (ls : List Lex) :
    lexesLength (scanNumWhole n p ls).1 + lexesLength (scanNumWhole n p ls).2.2.2 =
      lexesLength ls := by
  have := congrArg List.length (scanNumWhole_text n p ls)
  simpa [lexesLength] using this

theorem scanNumFrac_len (p : Nat) (ls : List Lex) :
    lexesLength (scanNumFrac p ls).1 + lexesLength (scanNumFrac p ls).2.2.2 =
      lexesLength ls := by
  have := congrArg List.length (scanNumFrac_text p ls)
  simpa [lexesLength] using this

theorem scanNumWhole_issue_inv (n p : Nat) (ls : List Lex)
    (hn : n ≤ p) (hnil : ls = [] → n + 1 ≤ p) (hne : ∀ x ∈ ls, 1 ≤ x.length) :
    issuesSortedB (scanNumWhole n p ls).2.1 = true ∧
    ∀ i ∈ (scanNumWhole n p ls).2.1,
      n ≤ i.start ∧ i.start ≤ (scanNumWhole n p ls).2.2.1 ∧
      i.start + i.length ≤ p + lexesLength ls := by
  match ls with
  | [] =>
    simp only [scanNumWhole]
    refine ⟨rfl, ?_⟩
    intro i hi
    simp only [List.mem_singleton] at hi
    subst hi
    have := hnil rfl
    simp only [lexesLength_nil]
    exact ⟨Nat.le_refl _, hn, by omega⟩
  | l :: rest =>
    simp only [scanNumWhole]
    split
    · exact ⟨rfl, by simp⟩
    · refine ⟨rfl, ?_⟩
      intro i hi
      simp only [List.mem_singleton] at hi
      subst hi
      simp only [lexesLength_cons]
      exact ⟨hn, Nat.le_refl _, by omega⟩

theorem scanNumFrac_issue_inv (p : Nat) (ls : List Lex)
    (hne : ∀ x ∈ ls, 1 ≤ x.length) :
    issuesSortedB (scanNumFrac p ls).2.1 = true ∧
    ∀ i ∈ (scanNumFrac p ls).2.1,
      p ≤ i.start ∧ i.start ≤ (scanNumFrac p ls).2.2.1 ∧
      i.start + i.length ≤ p + lexesLength ls := by
  match ls with
  | [] => exact ⟨rfl, by simp [scanNumFrac]⟩
  | l :: rest =>
    simp only [scanNumFrac]
    split
    · match rest with
      | [] =>
        simp only
        refine ⟨rfl, ?_⟩
        intro i hi
        simp only [List.mem_singleton] at hi
        subst hi
        have h1 : 1 ≤ l.length := hne l (by simp)
        simp only [lexesLength_cons, lexesLength_nil]
        exact ⟨Nat.le_refl _, by omega, by omega⟩
      | d :: rest2 =>
        simp only
        split
        · exact ⟨rfl, by simp⟩
        · refine ⟨rfl, ?_⟩
          intro i hi
          simp only [List.mem_singleton] at hi
          subst hi
          simp only [lexesLength_cons]
          exact ⟨by omega, by omega, by omega⟩
    · exact ⟨rfl, by simp⟩

theorem scanNumExp_issue_inv (p : Nat) (ls : List Lex)
    (hne : ∀ x ∈ ls, 1 ≤ x.length) :
    issuesSortedB (scanNumExp p ls).2.1 = true ∧
    ∀ i ∈ (scanNumExp p ls).2.1,
      p ≤ i.start ∧ i.start ≤ p + lexesLength (scanNumExp p ls).1 ∧
      i.start + i.length ≤ p + lexesLength ls := by
  match ls with
  | [] => exact ⟨rfl, by simp [scanNumExp]⟩
  | l :: rest =>
    simp only [scanNumExp]
    split
    case isFalse => exact ⟨rfl, by simp⟩
    case isTrue hel =>
      have h1 : 1 ≤ l.length := hne l (by simp)
      match rest with
      | [] =>
        simp only
        constructor
        · split <;> simp [issuesSortedB]
        · intro i hi
          simp only [List.mem_append, List.mem_singleton] at hi
          have hi2 : i.start = p ∧ i.length = 1 := by
            rcases hi with hi | hi
            · revert hi
              split
              · intro hi
                simp only [List.mem_singleton] at hi
                subst hi
                exact ⟨rfl, rfl⟩
              · intro hi
                exact absurd hi (by simp)
            · subst hi
              exact ⟨rfl, rfl⟩
          simp only [lexesLength_cons, lexesLength_nil]
          omega
      | d :: rest2 =>
        simp only
        have h2 : 1 ≤ d.length := hne d (by simp)
        split
        · -- exponent sign consumed
          match rest2 with
          | [] =>
            simp only
            constructor
            · split <;> simp [issuesSortedB] <;> omega
            · intro i hi
              simp only [List.mem_append, List.mem_singleton] at hi
              have hi2 : (i.start = p ∧ i.length = 1) ∨
                  (i.start = p + l.length ∧ i.length = 1) := by
                rcases hi with hi | hi
                · revert hi
                  split
                  · intro hi
                    simp only [List.mem_singleton] at hi
                    subst hi
                    exact Or.inl ⟨rfl, rfl⟩
                  · intro hi
                    exact absurd hi (by simp)
                · subst hi
                  exact Or.inr ⟨rfl, rfl⟩
              simp only [lexesLength_cons, lexesLength_nil]
              omega
          | dd :: rest3 =>
            simp only
            split
            · constructor
              · split <;> simp [issuesSortedB]
              · intro i hi
                have hi2 : i.start = p ∧ i.length = 1 := by
                  revert hi
                  split
                  · intro hi
                    simp only [List.mem_singleton] at hi
                    subst hi
                    exact ⟨rfl, rfl⟩
                  · intro hi
                    exact absurd hi (by simp)
                simp only [lexesLength_cons]
                omega
            · constructor
              · split <;> simp [issuesSortedB] <;> omega
              · intro i hi
                simp only [List.mem_append, List.mem_singleton] at hi
                have hi2 : (i.start = p ∧ i.length = 1) ∨
                    (i.start = p + l.length + d.length ∧ i.length = dd.length) := by
                  rcases hi with hi | hi
                  · revert hi
                    split
                    · intro hi
                      simp only [List.mem_singleton] at hi
                      subst hi
                      exact Or.inl ⟨rfl, rfl⟩
                    · intro hi
                      exact absurd hi (by simp)
                  · subst hi
                    exact Or.inr ⟨rfl, rfl⟩
                simp only [lexesLength_cons]
                omega
        · -- no exponent sign
          split
          · constructor
            · split <;> simp [issuesSortedB]
            · intro i hi
              have hi2 : i.start = p ∧ i.length = 1 := by
                revert hi
                split
                · intro hi
                  simp only [List.mem_singleton] at hi
                  subst hi
                  exact ⟨rfl, rfl⟩
                · intro hi
                  exact absurd hi (by simp)
              simp only [lexesLength_cons]
              omega
          · constructor
            · split <;> simp [issuesSortedB] <;> omega
            · intro i hi
              simp only [List.mem_append, List.mem_singleton] at hi
              have hi2 : (i.start = p ∧ i.length = 1) ∨
                  (i.start = p + l.length ∧ i.length = d.length) := by
                rcases hi with hi | hi
                · revert hi
                  split
                  · intro hi
                    simp only [List.mem_singleton] at hi
                    subst hi
                    exact Or.inl ⟨rfl, rfl⟩
                  · intro hi
                    exact absurd hi (by simp)
                · subst hi
                  exact Or.inr ⟨rfl, rfl⟩
              simp only [lexesLength_cons]
              omega

theorem lexesLength_suffix_mono {a b : List Lex} (h : a <:+ b) :
    lexesLength a ≤ lexesLength b := by
  obtain ⟨t, rfl⟩ := h
  have := congrArg List.length (lexesText_append t a)
  simp only [List.length_append] at this
  simp [lexesLength]
  omega

/-- Combined invariant for the number scan: its issues are sorted, start at
or after the number start, start no later than the position just after the
consumed lexemes, and end within the remaining input. -/
theorem scanNumber_issue_inv (p : Nat) (l : Lex) (ls : List Lex)
    (hne : ∀ x ∈ l :: ls, 1 ≤ x.length) :
    issuesSortedB (scanNumber p (l :: ls)).2.1 = true ∧
    ∀ i ∈ (scanNumber p (l :: ls)).2.1,
      p ≤ i.start ∧ i.start ≤ p + lexesLength (scanNumber p (l :: ls)).1 ∧
      i.start + i.length ≤ p + lexesLength (l :: ls) := by
  have hnil : (scanNumSign p (l :: ls)).2.2 = [] → p + 1 ≤ (scanNumSign p (l :: ls)).2.1 := by
    simp only [scanNumSign]
    split
    · intro h
      have := hne l (by simp)
      simp only
      omega
    · intro h
      exact absurd h (by simp)
  have hsub1 : (scanNumSign p (l :: ls)).2.2 <:+ l :: ls := scanNumSign_rest_suffix p _
  have hne1 : ∀ x ∈ (scanNumSign p (l :: ls)).2.2, 1 ≤ x.length :=
    fun x hx => hne x (hsub1.subset hx)
  have hpos1 := scanNumSign_pos p (l :: ls)
  have hlen1 := scanNumSign_len p (l :: ls)
  have hw := scanNumWhole_issue_inv p (scanNumSign p (l :: ls)).2.1
    (scanNumSign p (l :: ls)).2.2 (by omega) hnil hne1
  have hpos2 := scanNumWhole_pos p (scanNumSign p (l :: ls)).2.1 (scanNumSign p (l :: ls)).2.2
  have hlen2 := scanNumWhole_len p (scanNumSign p (l :: ls)).2.1 (scanNumSign p (l :: ls)).2.2
  have hsub2 : (scanNumWhole p (scanNumSign p (l :: ls)).2.1
      (scanNumSign p (l :: ls)).2.2).2.2.2 <:+ (scanNumSign p (l :: ls)).2.2 :=
    scanNumWhole_rest_suffix _ _ _
  have hne2 : ∀ x ∈ (scanNumWhole p (scanNumSign p (l :: ls)).2.1
      (scanNumSign p (l :: ls)).2.2).2.2.2, 1 ≤ x.length :=
    fun x hx => hne1 x (hsub2.subset hx)
  have hf := scanNumFrac_issue_inv (scanNumWhole p (scanNumSign p (l :: ls)).2.1
    (scanNumSign p (l :: ls)).2.2).2.2.1
    (scanNumWhole p (scanNumSign p (l :: ls)).2.1 (scanNumSign p (l :: ls)).2.2).2.2.2 hne2
  have hpos3 := scanNumFrac_pos (scanNumWhole p (scanNumSign p (l :: ls)).2.1
    (scanNumSign p (l :: ls)).2.2).2.2.1
    (scanNumWhole p (scanNumSign p (l :: ls)).2.1 (scanNumSign p (l :: ls)).2.2).2.2.2
  have hlen3 := scanNumFrac_len (scanNumWhole p (scanNumSign p (l :: ls)).2.1
    (scanNumSign p (l :: ls)).2.2).2.2.1
    (scanNumWhole p (scanNumSign p (l :: ls)).2.1 (scanNumSign p (l :: ls)).2.2).2.2.2
  have hsub3 := scanNumFrac_rest_suffix (scanNumWhole p (scanNumSign p (l :: ls)).2.1
    (scanNumSign p (l :: ls)).2.2).2.2.1
    (scanNumWhole p (scanNumSign p (l :: ls)).2.1 (scanNumSign p (l :: ls)).2.2).2.2.2
  have hne3 : ∀ x ∈ (scanNumFrac (scanNumWhole p (scanNumSign p (l :: ls)).2.1
      (scanNumSign p (l :: ls)).2.2).2.2.1
      (scanNumWhole p (scanNumSign p (l :: ls)).2.1
        (scanNumSign p (l :: ls)).2.2).2.2.2).2.2.2, 1 ≤ x.length :=
    fun x hx => hne2 x (hsub3.subset hx)
  have he := scanNumExp_issue_inv (scanNumFrac (scanNumWhole p (scanNumSign p (l :: ls)).2.1
    (scanNumSign p (l :: ls)).2.2).2.2.1
    (scanNumWhole p (scanNumSign p (l :: ls)).2.1 (scanNumSign p (l :: ls)).2.2).2.2.2).2.2.1
    ((scanNumFrac (scanNumWhole p (scanNumSign p (l :: ls)).2.1
      (scanNumSign p (l :: ls)).2.2).2.2.1
      (scanNumWhole p (scanNumSign p (l :: ls)).2.1
        (scanNumSign p (l :: ls)).2.2).2.2.2).2.2.2) hne3
  have hlen4 := scanNumExp_text (scanNumFrac (scanNumWhole p (scanNumSign p (l :: ls)).2.1
    (scanNumSign p (l :: ls)).2.2).2.2.1
    (scanNumWhole p (scanNumSign p (l :: ls)).2.1 (scanNumSign p (l :: ls)).2.2).2.2.2).2.2.1
    ((scanNumFrac (scanNumWhole p (scanNumSign p (l :: ls)).2.1
      (scanNumSign p (l :: ls)).2.2).2.2.1
      (scanNumWhole p (scanNumSign p (l :: ls)).2.1
        (scanNumSign p (l :: ls)).2.2).2.2.2).2.2.2)
  have hlen4' := congrArg List.length hlen4
  simp only [List.length_append] at hlen4'
  unfold scanNumber
  dsimp only
  simp only [lexesLength] at *
  constructor
  · refine issuesSortedB_append (issuesSortedB_append hw.1 hf.1 ?_) he.1 ?_
    · intro i hi j hj
      have h1 := (hw.2 i hi).2.1
      have h2 := (hf.2 j hj).1
      omega
    · intro i hi j hj
      have h2 := (he.2 j hj).1
      simp only [List.mem_append] at hi
      rcases hi with hi | hi
      · have h1 := (hw.2 i hi).2.1
        omega
      · have h1 := (hf.2 i hi).2.1
        omega
  · intro i hi
    simp only [List.mem_append] at hi
    simp only [lexesText_append, List.length_append]
    rcases hi with (hi | hi) | hi
    · have h1 := hw.2 i hi
      omega
    · have h1 := hf.2 i hi
      omega
    · have h1 := he.2 i hi
      omega

theorem Token.length_mk (ty : TokenType) (lexes : List Lex) (st : Nat) :
    (Token.mk ty lexes st).length = lexesLength lexes := rfl

theorem scanQuoted_len (q : LexType) (e : Bool) (ls : List Lex) :
    lexesLength (scanQuoted q e ls).1 + lexesLength (scanQuoted q e ls).2.2 = lexesLength ls := by
  have := congrArg List.length (scanQuoted_text q e ls)
  simpa [lexesLength] using this

/-- Per-token invariant of the tokenizer issues: sorted, anchored at or
after the token start, starting no later than the position just after the
token, and ending within the remaining input. -/
theorem nextToken_issue_inv (pos : Nat) (l : Lex) (ls : List Lex)
    (hne : ∀ x ∈ l :: ls, 1 ≤ x.length) :
    issuesSortedB (nextToken pos l ls).2.2 = true ∧
    ∀ i ∈ (nextToken pos l ls).2.2,
      pos ≤ i.start ∧ i.start ≤ pos + (nextToken pos l ls).1.length ∧
      i.start + i.length ≤ pos + lexesLength (l :: ls) := by
  have hl1 : 1 ≤ l.length := hne l (by simp)
  cases hl : l.type
  all_goals simp only [nextToken, hl]
  case letters =>
    constructor
    · repeat' split
      all_goals rfl
    · repeat' split
      all_goals simp
  case singleQuote =>
    have hq := scanQuoted_len .singleQuote false ls
    constructor
    · split <;> rfl
    · split
      · simp
      · intro i hi
        simp only [List.mem_singleton] at hi
        subst hi
        simp only [Token.length_mk, lexesLength_cons]
        exact ⟨Nat.le_refl _, by omega, by omega⟩
  case doubleQuote =>
    have hq := scanQuoted_len .doubleQuote false ls
    constructor
    · split <;> rfl
    · split
      · simp
      · intro i hi
        simp only [List.mem_singleton] at hi
        subst hi
        simp only [Token.length_mk, lexesLength_cons]
        exact ⟨Nat.le_refl _, by omega, by omega⟩
  case dash =>
    have h := scanNumber_issue_inv pos l ls hne
    exact ⟨h.1, fun i hi => by
      have := h.2 i hi
      simpa [Token.length_mk] using this⟩
  case digits =>
    have h := scanNumber_issue_inv pos l ls hne
    exact ⟨h.1, fun i hi => by
      have := h.2 i hi
      simpa [Token.length_mk] using this⟩
  case period =>
    have h := scanNumber_issue_inv pos l ls hne
    exact ⟨h.1, fun i hi => by
      have := h.2 i hi
      simpa [Token.length_mk] using this⟩
  case forwardSlash =>
    match ls with
    | [] =>
      refine ⟨rfl, ?_⟩
      intro i hi
      simp only [List.mem_singleton] at hi
      subst hi
      simp only [Token.length_mk, lexesLength_cons, lexesLength_nil]
      exact ⟨Nat.le_refl _, by omega, by omega⟩
    | m :: ms =>
      have hm1 : 1 ≤ m.length := hne m (by simp)
      simp only
      split
      · exact ⟨rfl, by simp⟩
      · split
        · exact ⟨rfl, by simp⟩
        · refine ⟨rfl, ?_⟩
          intro i hi
          simp only [List.mem_singleton] at hi
          subst hi
          simp only [Token.length_mk, lexesLength_cons]
          exact ⟨by omega, by omega, by omega⟩
  all_goals exact ⟨rfl, by simp⟩

/-- Every lexeme produced by the lexer is nonempty. -/
theorem lexer_lex_nonempty (s : List Char) : ∀ x ∈ lexer s, 1 ≤ x.length := by
  induction s using lexer.induct
  all_goals intro x hx
  all_goals rw [lexer.eq_def] at hx
  all_goals repeat' split at hx
  all_goals try injections
  all_goals try subst_eqs
  all_goals
    first
    | (solve | simp_all [Lex.length])
    | simp only [List.not_mem_nil] at hx
    | (simp only [List.mem_singleton] at hx
       subst hx
       simp [Lex.length])
    | (simp only [List.mem_cons] at hx
       rcases hx with hx | hx
       · subst hx
         simp [Lex.length]
       · solve_by_elim)

/-- Tokenizer-level issue invariant: the issues of a whole tokenization are
in source order and lie within the tokenized text. -/
theorem tokenize_issue_inv (pos : Nat) (ls : List Lex) (hne : ∀ x ∈ ls, 1 ≤ x.length) :
    issuesSortedB (tokenize pos ls).2 = true ∧
    ∀ i ∈ (tokenize pos ls).2, pos ≤ i.start ∧ i.start + i.length ≤ pos + lexesLength ls := by
  induction pos, ls using tokenize.induct with
  | case1 pos => refine ⟨?_, ?_⟩ <;> simp [tokenize, issuesSortedB]
  | case2 pos l ls r ih =>
    have hr : r = nextToken pos l ls := rfl
    rw [hr] at ih
    have hnt := nextToken_issue_inv pos l ls hne
    have hrest : ∀ x ∈ (nextToken pos l ls).2.1, 1 ≤ x.length :=
      fun x hx => hne x ((nextToken_rest_suffix pos l ls).subset hx)
    have ihh := ih hrest
    have hlen : (nextToken pos l ls).1.length + lexesLength (nextToken pos l ls).2.1 =
        lexesLength (l :: ls) := by
      have := congrArg List.length (nextToken_text pos l ls)
      simpa [lexesLength, Token.length] using this
    rw [tokenize]
    constructor
    · refine issuesSortedB_append hnt.1 ihh.1 ?_
      intro i hi j hj
      have h1 := (hnt.2 i hi).2.1
      have h2 := (ihh.2 j hj).1
      omega
    · intro i hi
      simp only [List.mem_append] at hi
      rcases hi with hi | hi
      · have h1 := hnt.2 i hi
        omega
      · have h1 := ihh.2 i hi
        omega

def tokensLen (ts : List Token) : Nat := (tokensText ts).length

theorem tokensLen_cons (t : Token) (ts : List Token) :
    tokensLen (t :: ts) = t.length + tokensLen ts := by
  simp [tokensLen, tokensText, Token.length]

theorem tokensLen_append (a b : List Token) :
    tokensLen (a ++ b) = tokensLen a + tokensLen b := by
  simp [tokensLen, tokensText_append]

/-- The tokens are contiguous: each token starts where the previous one
ended, beginning at `p`. -/
def chained : Nat → List Token → Prop
  | _, [] => True
  | p, t :: ts => t.start = p ∧ chained (p + t.length) ts

theorem nextToken_start (pos : Nat) (l : Lex) (ls : List Lex) :
    (nextToken pos l ls).1.start = pos := by
  cases hl : l.type
  all_goals simp only [nextToken, hl]
  case letters => repeat' split
                  all_goals rfl
  case forwardSlash =>
    match ls with
    | [] => rfl
    | m :: ms =>
      simp only
      split
      · rfl
      · split <;> rfl
  all_goals rfl

theorem tokenize_chained (pos : Nat) (ls : List Lex) :
    chained pos (tokenize pos ls).1 := by
  induction pos, ls using tokenize.induct with
  | case1 pos => simp [tokenize, chained]
  | case2 pos l ls r ih =>
    have hr : r = nextToken pos l ls := rfl
    rw [hr] at ih
    rw [tokenize]
    exact ⟨nextToken_start pos l ls, ih⟩

theorem chained_append (p : Nat) (a b : List Token) (h : chained p (a ++ b)) :
    chained (p + tokensLen a) b := by
  induction a generalizing p with
  | nil => simpa [tokensLen, tokensText] using h
  | cons t ts ih =>
    simp only [List.cons_append, chained] at h
    rw [tokensLen_cons, ← Nat.add_assoc]
    exact ih (p + t.length) h.2

theorem chained_mem_bounds (p : Nat) (ts : List Token) (h : chained p ts) :
    ∀ t ∈ ts, p ≤ t.start ∧ t.start + t.length ≤ p + tokensLen ts := by
  induction ts generalizing p with
  | nil => simp
  | cons x xs ih =>
    intro t ht
    simp only [List.mem_cons] at ht
    obtain ⟨hx, hch⟩ := h
    rcases ht with rfl | ht
    · rw [tokensLen_cons]
      omega
    · have := ih (p + x.length) hch t ht
      rw [tokensLen_cons]
      omega

/-- The unconsumed rest of every parser function is a suffix of the input. -/
theorem parserSuffix (fuel : Nat) :
    (∀ nameTok ts, (parseProperty fuel nameTok ts).2.1 <:+ ts) ∧
    (∀ lcb ts, (parseObject fuel lcb ts).2.1 <:+ ts) ∧
    (∀ pna ca rcba ts, (objectLoop fuel pna ca rcba ts).2.2.1 <:+ ts) ∧
    (∀ lsb ts, (parseArray fuel lsb ts).2.1 <:+ ts) ∧
    (∀ aea ca rsba ts, (arrayLoop fuel aea ca rsba ts).2.2.1 <:+ ts) := by
  induction fuel with
  | zero =>
    refine ⟨?_, ?_, ?_, ?_, ?_⟩ <;>
      intros <;>
      simp [parseProperty, parseObject, objectLoop, parseArray, arrayLoop]
  | succ fuel ih =>
    obtain ⟨ihp, iho, ihol, iha, ihal⟩ := ih
    have hol : ∀ pna ca rcba ts, (objectLoop (fuel + 1) pna ca rcba ts).2.2.1 <:+ ts := by
      intro pna ca rcba ts
      match ts with
      | [] => simp [objectLoop]
      | t :: ts1 =>
        rw [objectLoop]
        cases h : t.type
        all_goals simp only
        case quotedString =>
          exact ((ihol _ _ _ _).trans (ihp _ _)).trans (List.suffix_cons _ _)
        case rightCurlyBracket => exact List.suffix_cons _ _
        all_goals exact (ihol _ _ _ _).trans (List.suffix_cons _ _)
    have hal : ∀ aea ca rsba ts, (arrayLoop (fuel + 1) aea ca rsba ts).2.2.1 <:+ ts := by
      intro aea ca rsba ts
      match ts with
      | [] => simp [arrayLoop]
      | t :: ts1 =>
        rw [arrayLoop]
        cases h : t.type
        all_goals simp only
        case leftCurlyBracket =>
          exact ((ihal _ _ _ _).trans (iho _ _)).trans (List.suffix_cons _ _)
        case leftSquareBracket =>
          exact ((ihal _ _ _ _).trans (iha _ _)).trans (List.suffix_cons _ _)
        case rightSquareBracket => exact List.suffix_cons _ _
        all_goals exact (ihal _ _ _ _).trans (List.suffix_cons _ _)
    refine ⟨?_, ?_, hol, ?_, hal⟩
    · intro nameTok ts
      rw [parseProperty]
      simp only
      have hd : ts.dropWhile isWsTok <:+ ts := List.dropWhile_suffix _
      cases hts : ts.dropWhile isWsTok with
      | nil => simp
      | cons colonTok ts2 =>
        rw [hts] at hd
        have hd2 : ts2.dropWhile isWsTok <:+ ts2 := List.dropWhile_suffix _
        simp only
        split
        · cases hts3 : ts2.dropWhile isWsTok with
          | nil => simp
          | cons v ts4 =>
            rw [hts3] at hd2
            simp only
            have hts4 : ts4 <:+ ts := by
              refine List.IsSuffix.trans ?_ hd
              refine List.IsSuffix.trans ?_ (List.suffix_cons _ _)
              exact ((List.suffix_cons _ _).trans hd2 : ts4 <:+ ts2)
            cases hv : v.type
            all_goals simp only
            case leftCurlyBracket => exact (iho _ _).trans hts4
            case leftSquareBracket => exact (iha _ _).trans hts4
            all_goals
              first
              | exact hts4
              | exact (hd2.trans (List.suffix_cons _ _)).trans hd
        · exact hd
    · intro lcb ts
      rw [parseObject]
      exact ihol true false true ts
    · intro lsb ts
      rw [parseArray]
      exact ihal true false true ts

theorem issBound_append {N : Nat} {a b : List Issue}
    (ha : ∀ i ∈ a, i.start + i.length ≤ N) (hb : ∀ i ∈ b, i.start + i.length ≤ N) :
    ∀ i ∈ a ++ b, i.start + i.length ≤ N := by
  intro i hi
  rcases List.mem_append.mp hi with hi | hi
  · exact ha i hi
  · exact hb i hi

theorem issBound_ite {c : Prop} [Decidable c] {N : Nat} {a b : List Issue}
    (ha : ∀ i ∈ a, i.start + i.length ≤ N) (hb : ∀ i ∈ b, i.start + i.length ≤ N) :
    ∀ i ∈ (if c then a else b), i.start + i.length ≤ N := by
  split
  · exact ha
  · exact hb

theorem issBound_nil {N : Nat} : ∀ i ∈ ([] : List Issue), i.start + i.length ≤ N := by
  simp

theorem issBound_single {N : Nat} {m : String} {t : Token} (ht : t.start + t.length ≤ N) :
    ∀ i ∈ [issueAt m t], i.start + i.length ≤ N := by
  intro i hi
  simp only [List.mem_singleton] at hi
  subst hi
  simpa [issueAt] using ht

/-- Issue bounds of every parser function: when every input token (and the
explicitly passed head token) ends at or before `N`, every issue's span also
ends at or before `N` (every parser issue is anchored at some input token). -/
theorem parserIssueBounds (fuel : Nat) :
    (∀ N nameTok ts, nameTok.start + nameTok.length ≤ N →
      (∀ u ∈ ts, u.start + u.length ≤ N) →
      ∀ i ∈ (parseProperty fuel nameTok ts).2.2, i.start + i.length ≤ N) ∧
    (∀ N lcb ts, lcb.start + lcb.length ≤ N →
      (∀ u ∈ ts, u.start + u.length ≤ N) →
      ∀ i ∈ (parseObject fuel lcb ts).2.2, i.start + i.length ≤ N) ∧
    (∀ N pna ca rcba ts, (∀ u ∈ ts, u.start + u.length ≤ N) →
      ∀ i ∈ (objectLoop fuel pna ca rcba ts).2.2.2, i.start + i.length ≤ N) ∧
    (∀ N lsb ts, lsb.start + lsb.length ≤ N →
      (∀ u ∈ ts, u.start + u.length ≤ N) →
      ∀ i ∈ (parseArray fuel lsb ts).2.2, i.start + i.length ≤ N) ∧
    (∀ N aea ca rsba ts, (∀ u ∈ ts, u.start + u.length ≤ N) →
      ∀ i ∈ (arrayLoop fuel aea ca rsba ts).2.2.2, i.start + i.length ≤ N) := by
  induction fuel with
  | zero =>
    refine ⟨?_, ?_, ?_, ?_, ?_⟩
    · intro N nameTok ts _ _ i hi
      simp [parseProperty] at hi
    · intro N lcb ts _ _ i hi
      simp [parseObject] at hi
    · intro N pna ca rcba ts _ i hi
      simp [objectLoop] at hi
    · intro N lsb ts _ _ i hi
      simp [parseArray] at hi
    · intro N aea ca rsba ts _ i hi
      simp [arrayLoop] at hi
  | succ fuel ih =>
    obtain ⟨ihp, iho, ihol, iha, ihal⟩ := ih
    have hol : ∀ N pna ca rcba ts, (∀ u ∈ ts, u.start + u.length ≤ N) →
        ∀ i ∈ (objectLoop (fuel + 1) pna ca rcba ts).2.2.2, i.start + i.length ≤ N := by
      intro N pna ca rcba ts hts
      match ts with
      | [] =>
        intro i hi
        simp [objectLoop] at hi
      | t :: ts1 =>
        have ht : t.start + t.length ≤ N := hts t (List.mem_cons_self _ _)
        have hts1 : ∀ u ∈ ts1, u.start + u.length ≤ N :=
          fun u hu => hts u (List.mem_cons_of_mem _ hu)
        rw [objectLoop]
        cases h : t.type
        all_goals simp only
        case quotedString =>
          have hrp : ∀ u ∈ (parseProperty fuel t ts1).2.1, u.start + u.length ≤ N :=
            fun u hu => hts1 u (((parserSuffix fuel).1 t ts1).subset hu)
          exact issBound_append
            (issBound_append (issBound_ite issBound_nil (issBound_single ht))
              (ihp N t ts1 ht hts1))
            (ihol N false true true _ hrp)
        case rightCurlyBracket =>
          exact issBound_ite issBound_nil (issBound_single ht)
        case comma =>
          exact issBound_append
            (issBound_ite issBound_nil
              (issBound_ite (issBound_single ht) (issBound_single ht)))
            (ihol N true false false ts1 hts1)
        all_goals
          first
          | exact ihol N pna ca rcba ts1 hts1
          | exact issBound_append
              (issBound_ite (issBound_ite (issBound_single ht) (issBound_single ht))
                (issBound_single ht))
              (ihol N pna ca _ ts1 hts1)
    have hal : ∀ N aea ca rsba ts, (∀ u ∈ ts, u.start + u.length ≤ N) →
        ∀ i ∈ (arrayLoop (fuel + 1) aea ca rsba ts).2.2.2, i.start + i.length ≤ N := by
      intro N aea ca rsba ts hts
      match ts with
      | [] =>
        intro i hi
        simp [arrayLoop] at hi
      | t :: ts1 =>
        have ht : t.start + t.length ≤ N := hts t (List.mem_cons_self _ _)
        have hts1 : ∀ u ∈ ts1, u.start + u.length ≤ N :=
          fun u hu => hts u (List.mem_cons_of_mem _ hu)
        rw [arrayLoop]
        cases h : t.type
        all_goals simp only
        case leftCurlyBracket =>
          have hro : ∀ u ∈ (parseObject fuel t ts1).2.1, u.start + u.length ≤ N :=
            fun u hu => hts1 u (((parserSuffix fuel).2.1 t ts1).subset hu)
          exact issBound_append
            (issBound_append (issBound_ite issBound_nil (issBound_single ht))
              (iho N t ts1 ht hts1))
            (ihal N false true true _ hro)
        case leftSquareBracket =>
          have hra : ∀ u ∈ (parseArray fuel t ts1).2.1, u.start + u.length ≤ N :=
            fun u hu => hts1 u (((parserSuffix fuel).2.2.2.1 t ts1).subset hu)
          exact issBound_append
            (issBound_append (issBound_ite issBound_nil (issBound_single ht))
              (iha N t ts1 ht hts1))
            (ihal N false true true _ hra)
        case comma =>
          exact issBound_append
            (issBound_ite issBound_nil
              (issBound_ite (issBound_single ht) (issBound_single ht)))
            (ihal N true false false ts1 hts1)
        case rightSquareBracket =>
          exact issBound_ite issBound_nil (issBound_single ht)
        all_goals
          first
          | exact ihal N aea ca rsba ts1 hts1
          | exact issBound_append (issBound_ite issBound_nil (issBound_single ht))
              (ihal N false true true ts1 hts1)
          | exact issBound_append
              (issBound_ite (issBound_ite (issBound_single ht) (issBound_single ht))
                (issBound_single ht))
              (ihal N false true true ts1 hts1)
    refine ⟨?_, ?_, hol, ?_, hal⟩
    · intro N nameTok ts hname hts
      rw [parseProperty]
      simp only
      have hd : ts.dropWhile isWsTok <:+ ts := List.dropWhile_suffix _
      cases hts2 : ts.dropWhile isWsTok with
      | nil => exact issBound_single hname
      | cons colonTok ts2 =>
        have hdc : colonTok :: ts2 <:+ ts := hts2 ▸ hd
        have hcolon : colonTok.start + colonTok.length ≤ N :=
          hts colonTok (hdc.subset (List.mem_cons_self _ _))
        have hts2h : ∀ u ∈ ts2, u.start + u.length ≤ N :=
          fun u hu => hts u (hdc.subset (List.mem_cons_of_mem _ hu))
        simp only
        split
        · cases hts3 : ts2.dropWhile isWsTok with
          | nil => exact issBound_single hcolon
          | cons v ts4 =>
            have hdv : v :: ts4 <:+ ts2 := hts3 ▸ List.dropWhile_suffix isWsTok
            have hv : v.start + v.length ≤ N :=
              hts2h v (hdv.subset (List.mem_cons_self _ _))
            have hts4 : ∀ u ∈ ts4, u.start + u.length ≤ N :=
              fun u hu => hts2h u (hdv.subset (List.mem_cons_of_mem _ hu))
            simp only
            cases hvt : v.type
            all_goals simp only
            case leftCurlyBracket => exact iho N v ts4 hv hts4
            case leftSquareBracket => exact iha N v ts4 hv hts4
            all_goals
              first
              | (intro i hi
                 simp only [List.not_mem_nil] at hi)
              | exact issBound_single hv
        · exact issBound_single hcolon
    · intro N lcb ts hlcb hts
      rw [parseObject]
      simp only
      exact issBound_append (ihol N true false true ts hts)
        (issBound_ite issBound_nil (issBound_single hlcb))
    · intro N lsb ts hlsb hts
      rw [parseArray]
      simp only
      exact issBound_append (ihal N true false true ts hts)
        (issBound_ite issBound_nil (issBound_single hlsb))

theorem parseObject_start (fuel : Nat) (lcb : Token) (ts : List Token) :
    segStart (parseObject fuel lcb ts).1 = lcb.start := by
  cases fuel <;> simp [parseObject, segStart]

theorem parseArray_start (fuel : Nat) (lsb : Token) (ts : List Token) :
    segStart (parseArray fuel lsb ts).1 = lsb.start := by
  cases fuel <;> simp [parseArray, segStart]

/-- The segment produced for a head token starts at that token's start. -/
theorem parseSegment_start (fuel : Nat) (t : Token) (ts : List Token) :
    segStart (parseSegment fuel t ts).1 = t.start := by
  unfold parseSegment
  cases h : t.type
  all_goals simp only
  case leftCurlyBracket => exact parseObject_start fuel t ts
  case leftSquareBracket => exact parseArray_start fuel t ts
  all_goals simp [segStart]

theorem parseSegment_suffix (fuel : Nat) (t : Token) (ts : List Token) :
    (parseSegment fuel t ts).2.1 <:+ ts := by
  unfold parseSegment
  cases h : t.type
  all_goals simp only
  case leftCurlyBracket => exact (parserSuffix fuel).2.1 t ts
  case leftSquareBracket => exact (parserSuffix fuel).2.2.2.1 t ts
  all_goals exact List.suffix_refl _

theorem parseSegment_len (fuel : Nat) (t : Token) (ts : List Token) :
    segLength (parseSegment fuel t ts).1 + tokensLen (parseSegment fuel t ts).2.1 =
      t.length + tokensLen ts := by
  have h := congrArg List.length (parseSegment_text fuel t ts)
  simpa [segLength, tokensLen, Token.length] using h

theorem parseSegment_issues (fuel : Nat) (t : Token) (ts : List Token) (N : Nat)
    (ht : t.start + t.length ≤ N) (hts : ∀ u ∈ ts, u.start + u.length ≤ N) :
    ∀ i ∈ (parseSegment fuel t ts).2.2, i.start + i.length ≤ N := by
  unfold parseSegment
  cases h : t.type
  all_goals simp only
  case leftCurlyBracket => exact (parserIssueBounds fuel).2.1 N t ts ht hts
  case leftSquareBracket => exact (parserIssueBounds fuel).2.2.2.1 N t ts ht hts
  all_goals intro i hi
  all_goals simp only [List.not_mem_nil] at hi

theorem chained_suffix {p : Nat} {ts b : List Token} (h : chained p ts) (hs : b <:+ ts) :
    ∃ q, chained q b ∧ q + tokensLen b = p + tokensLen ts := by
  obtain ⟨a, rfl⟩ := hs
  exact ⟨p + tokensLen a, chained_append p a b h, by rw [tokensLen_append]; omega⟩

/-- Document-level issue bounds: with contiguous input tokens starting at
`p`, every issue of the document parse ends within the tokens' text. -/
theorem parseDoc_issue_bounds (fuel : Nat) (b : Bool) (ts : List Token) (p : Nat)
    (hc : chained p ts) :
    ∀ i ∈ (parseDoc fuel b ts).2, i.start + i.length ≤ p + tokensLen ts := by
  induction fuel generalizing b ts p with
  | zero =>
    intro i hi
    simp [parseDoc] at hi
  | succ fuel ih =>
    match ts with
    | [] =>
      intro i hi
      simp [parseDoc] at hi
    | t :: ts1 =>
      rw [parseDoc]
      simp only
      obtain ⟨hstart, hch⟩ := hc
      intro i hi
      rcases List.mem_append.mp hi with hi | hi
      · rcases List.mem_append.mp hi with hi | hi
        · have hbound := parseSegment_issues fuel t ts1 (p + tokensLen (t :: ts1))
            (by rw [tokensLen_cons]; omega)
            (fun u hu => by
              have := chained_mem_bounds (p + t.length) ts1 hch u hu
              rw [tokensLen_cons]
              omega)
            i hi
          exact hbound
        · split at hi
          · simp only [List.mem_singleton] at hi
            subst hi
            have h1 := parseSegment_start fuel t ts1
            have h2 := parseSegment_len fuel t ts1
            simp only
            rw [tokensLen_cons]
            omega
          · simp at hi
      · have hsuf := parseSegment_suffix fuel t ts1
        obtain ⟨q, hq, hqe⟩ := chained_suffix hch hsuf
        have hb := ih _ _ q hq i hi
        rw [tokensLen_cons]
        omega

theorem lexesLength_lexer (s : List Char) : lexesLength (lexer s) = s.length := by
  rw [lexesLength, lexer_text]

theorem tokensLen_tokenize (pos : Nat) (ls : List Lex) :
    tokensLen (tokenize pos ls).1 = lexesLength ls := by
  rw [tokensLen, tokenize_text, lexesLength]

/-- Every issue of a full parse (tokenizer and parser alike) spans a range
within the input text. -/
theorem parse_issue_bounds (s : List Char) :
    ∀ i ∈ (parse s).2, i.start + i.length ≤ s.length := by
  unfold parse
  simp only
  intro i hi
  rcases List.mem_append.mp hi with hi | hi
  · have h := (tokenize_issue_inv 0 (lexer s) (lexer_lex_nonempty s)).2 i hi
    have hl : lexesLength (lexer s) = s.length := lexesLength_lexer s
    omega
  · have hch := tokenize_chained 0 (lexer s)
    have h := parseDoc_issue_bounds _ false (tokenize 0 (lexer s)).1 0 hch i hi
    have hl : tokensLen (tokenize 0 (lexer s)).1 = s.length := by
      rw [tokensLen_tokenize, lexesLength_lexer]
    omega

theorem classifyChar_dquote {c : Char} (h : classifyChar c = .doubleQuote) : c = dquoteChar := by
  by_contra hne
  unfold classifyChar at h
  by_cases h1 : c = lcbChar
  · rw [if_pos h1] at h
    exact LexType.noConfusion h
  rw [if_neg h1] at h
  by_cases h2 : c = rcbChar
  · rw [if_pos h2] at h
    exact LexType.noConfusion h
  rw [if_neg h2] at h
  by_cases h3 : c = '['
  · rw [if_pos h3] at h
    exact LexType.noConfusion h
  rw [if_neg h3] at h
  by_cases h4 : c = ']'
  · rw [if_pos h4] at h
    exact LexType.noConfusion h
  rw [if_neg h4] at h
  by_cases h5 : c = ':'
  · rw [if_pos h5] at h
    exact LexType.noConfusion h
  rw [if_neg h5] at h
  by_cases h6 : c = ','
  · rw [if_pos h6] at h
    exact LexType.noConfusion h
  rw [if_neg h6] at h
  by_cases h7 : c = squoteChar
  · rw [if_pos h7] at h
    exact LexType.noConfusion h
  rw [if_neg h7] at h
  by_cases h8 : c = dquoteChar
  · exact hne h8
  rw [if_neg h8] at h
  by_cases h9 : c = ' '
  · rw [if_pos h9] at h
    exact LexType.noConfusion h
  rw [if_neg h9] at h
  by_cases h10 : c = '\t'
  · rw [if_pos h10] at h
    exact LexType.noConfusion h
  rw [if_neg h10] at h
  by_cases h11 : c = '\n'
  · rw [if_pos h11] at h
    exact LexType.noConfusion h
  rw [if_neg h11] at h
  by_cases h12 : c = '-'
  · rw [if_pos h12] at h
    exact LexType.noConfusion h
  rw [if_neg h12] at h
  by_cases h13 : c = '+'
  · rw [if_pos h13] at h
    exact LexType.noConfusion h
  rw [if_neg h13] at h
  by_cases h14 : c = '.'
  · rw [if_pos h14] at h
    exact LexType.noConfusion h
  rw [if_neg h14] at h
  by_cases h15 : c = '/'
  · rw [if_pos h15] at h
    exact LexType.noConfusion h
  rw [if_neg h15] at h
  by_cases h16 : c = '*'
  · rw [if_pos h16] at h
    exact LexType.noConfusion h
  rw [if_neg h16] at h
  by_cases h17 : c = '\\'
  · rw [if_pos h17] at h
    exact LexType.noConfusion h
  rw [if_neg h17] at h
  exact LexType.noConfusion h

/-- A text without a double-quote character lexes to no double-quote lexeme. -/
theorem lexer_no_dquote (s : List Char) : dquoteChar ∉ s →
    ∀ x ∈ lexer s, x.type ≠ .doubleQuote := by
  induction s using lexer.induct with
  | case1 =>
    intro h x hx
    simp [lexer] at hx
  | case2 c cs h1 ih =>
    intro h x hx
    rw [lexer.eq_def] at hx
    simp [h1, List.mem_cons] at hx
    rcases hx with hx | hx
    · subst hx
      simp
    · exact ih (fun hc => h (List.mem_cons_of_mem _
        ((List.dropWhile_suffix isLetterChar).subset hc))) x hx
  | case3 c cs h1 h2 ih =>
    intro h x hx
    rw [lexer.eq_def] at hx
    simp [h1, h2, List.mem_cons] at hx
    rcases hx with hx | hx
    · subst hx
      simp
    · exact ih (fun hc => h (List.mem_cons_of_mem _
        ((List.dropWhile_suffix isDigitChar).subset hc))) x hx
  | case4 h1 h2 =>
    intro h x hx
    rw [lexer.eq_def] at hx
    simp [h1, h2] at hx
    subst hx
    simp
  | case5 cs2 h1 h2 ih =>
    intro h x hx
    rw [lexer.eq_def] at hx
    simp [h1, h2, List.mem_cons] at hx
    rcases hx with hx | hx
    · subst hx
      simp
    · exact ih (fun hc => h (by simp [hc])) x hx
  | case6 c2 cs2 h0 h1 h2 ih =>
    intro h x hx
    rw [lexer.eq_def] at hx
    simp [h0, h1, h2, List.mem_cons] at hx
    rcases hx with hx | hx
    · subst hx
      simp
    · exact ih (fun hc => h (by simp [hc])) x hx
  | case7 c cs h1 h2 h3 ih =>
    intro h x hx
    rw [lexer.eq_def] at hx
    simp [h1, h2, h3, List.mem_cons] at hx
    rcases hx with hx | hx
    · subst hx
      intro ht
      have hc : c = dquoteChar := classifyChar_dquote ht
      subst hc
      exact h (List.mem_cons_self _ _)
    · exact ih (fun hc => h (List.mem_cons_of_mem _ hc)) x hx

/-- Without a closing-quote lexeme the quoted-string scan consumes the whole
stream and reports the end quote as not found. -/
theorem scanQuoted_all (e : Bool) (ls : List Lex) (h : ∀ x ∈ ls, x.type ≠ .doubleQuote) :
    scanQuoted .doubleQuote e ls = (ls, false, []) := by
  induction ls generalizing e with
  | nil => simp [scanQuoted]
  | cons l ls ih =>
    have hl := h l (List.mem_cons_self _ _)
    have ht : ∀ x ∈ ls, x.type ≠ .doubleQuote := fun x hx => h x (List.mem_cons_of_mem _ hx)
    simp only [scanQuoted]
    repeat' split
    all_goals first
      | (solve | simp [ih false ht])
      | (solve | simp [ih true ht])
      | (rename_i hq
         exact absurd hq hl)

theorem lexer_cons_notspecial (c : Char) (s : List Char)
    (h1 : ¬ isLetterChar c = true) (h2 : ¬ isDigitChar c = true) (h3 : ¬ c = '\x0d') :
    lexer (c :: s) = ⟨classifyChar c, [c]⟩ :: lexer s := by
  rw [lexer.eq_def]
  simp [h1, h2, h3]

theorem lexer_dquote_cons (s : List Char) :
    lexer (dquoteChar :: s) = ⟨.doubleQuote, [dquoteChar]⟩ :: lexer s := by
  rw [lexer_cons_notspecial dquoteChar s (by decide) (by decide) (by decide)]
  rw [show classifyChar dquoteChar = LexType.doubleQuote from by decide]

theorem lexer_slash_ast (s : List Char) :
    lexer ('/' :: '*' :: s) = ⟨.forwardSlash, ['/']⟩ :: ⟨.asterisk, ['*']⟩ :: lexer s := by
  rw [lexer_cons_notspecial '/' _ (by decide) (by decide) (by decide)]
  rw [lexer_cons_notspecial '*' _ (by decide) (by decide) (by decide)]
  rw [show classifyChar '/' = LexType.forwardSlash from by decide]
  rw [show classifyChar '*' = LexType.asterisk from by decide]

theorem lexer_lcb_cons (s : List Char) :
    lexer (lcbChar :: s) = ⟨.leftCurlyBracket, [lcbChar]⟩ :: lexer s := by
  rw [lexer_cons_notspecial lcbChar s (by decide) (by decide) (by decide)]
  rw [show classifyChar lcbChar = LexType.leftCurlyBracket from by decide]

theorem lexer_lsb_cons (s : List Char) :
    lexer ('[' :: s) = ⟨.leftSquareBracket, ['[']⟩ :: lexer s := by
  rw [lexer_cons_notspecial '[' s (by decide) (by decide) (by decide)]
  rw [show classifyChar '[' = LexType.leftSquareBracket from by decide]

theorem lexer_replicate_space (n : Nat) :
    lexer (List.replicate n ' ') = List.replicate n ⟨.space, [' ']⟩ := by
  induction n with
  | zero => simp [lexer]
  | succ n ih =>
    rw [List.replicate_succ, lexer_cons_notspecial ' ' _ (by decide) (by decide) (by decide)]
    rw [show classifyChar ' ' = LexType.space from by decide, ih, List.replicate_succ]

theorem takeWhile_replicate_space (m : Nat) :
    (List.replicate m (⟨.space, [' ']⟩ : Lex)).takeWhile isWsLex =
      List.replicate m ⟨.space, [' ']⟩ := by
  induction m with
  | zero => simp
  | succ m ih =>
    rw [List.replicate_succ, List.takeWhile_cons]
    simp [isWsLex, ih, List.replicate_succ]

theorem dropWhile_replicate_space (m : Nat) :
    (List.replicate m (⟨.space, [' ']⟩ : Lex)).dropWhile isWsLex = [] := by
  induction m with
  | zero => simp
  | succ m ih =>
    rw [List.replicate_succ, List.dropWhile_cons]
    simp [isWsLex, ih]

theorem lexesText_replicate_space (m : Nat) :
    lexesText (List.replicate m ⟨.space, [' ']⟩) = List.replicate m ' ' := by
  induction m with
  | zero => simp [lexesText]
  | succ m ih => simp [List.replicate_succ, lexesText, ih]

/-- An unterminated quoted string becomes one QuotedString token spanning to
the end of input, with one missing-end-quote issue spanning the token. -/
theorem tokenize_unterminated_string (s : List Char) (h : dquoteChar ∉ s) :
    tokenize 0 (lexer (dquoteChar :: s)) =
      ([⟨.quotedString, ⟨.doubleQuote, [dquoteChar]⟩ :: lexer s, 0⟩],
       [⟨missingEndQuoteMsg ⟨.doubleQuote, [dquoteChar]⟩, 0, s.length + 1⟩]) := by
  rw [lexer_dquote_cons, tokenize]
  simp only [nextToken]
  rw [scanQuoted_all false (lexer s) (lexer_no_dquote s h)]
  simp [tokenize, lexesLength, lexesText, lexer_text]

/-- An unterminated block comment becomes one BlockComment token spanning to
the end of input, with no issue at all. -/
theorem tokenize_unterminated_block (s : List Char) (h : (scanBlock (lexer s)).2 = []) :
    tokenize 0 (lexer ('/' :: '*' :: s)) =
      ([⟨.blockComment,
          ⟨.forwardSlash, ['/']⟩ :: ⟨.asterisk, ['*']⟩ :: (scanBlock (lexer s)).1, 0⟩], []) := by
  rw [lexer_slash_ast, tokenize]
  simp only [nextToken]
  simp [h, tokenize]

theorem tokenize_spaces (p m : Nat) :
    tokenize p (List.replicate (m + 1) ⟨.space, [' ']⟩) =
      ([⟨.whitespace, List.replicate (m + 1) ⟨.space, [' ']⟩, p⟩], []) := by
  rw [List.replicate_succ, tokenize]
  simp only [nextToken]
  rw [takeWhile_replicate_space, dropWhile_replicate_space]
  simp [tokenize, List.replicate_succ]

theorem parseDoc_nil (fuel : Nat) (b : Bool) : parseDoc fuel b [] = ([], []) := by
  cases fuel <;> simp [parseDoc]

theorem objectLoop_nil (fuel : Nat) (pna ca rcba : Bool) :
    objectLoop fuel pna ca rcba [] = ([], false, [], []) := by
  cases fuel <;> simp [objectLoop]

theorem arrayLoop_nil (fuel : Nat) (aea ca rsba : Bool) :
    arrayLoop fuel aea ca rsba [] = ([], false, [], []) := by
  cases fuel <;> simp [arrayLoop]

theorem parseSegment_other (fuel : Nat) (t : Token) (ts : List Token)
    (h1 : ¬ t.type = .leftCurlyBracket) (h2 : ¬ t.type = .leftSquareBracket) :
    parseSegment fuel t ts = (.token t, ts, []) := by
  unfold parseSegment
  cases h : t.type
  all_goals simp_all

theorem parseDoc_single (fuel : Nat) (hf : 1 ≤ fuel) (t : Token)
    (h1 : ¬ t.type = .leftCurlyBracket) (h2 : ¬ t.type = .leftSquareBracket) :
    parseDoc fuel false [t] = ([.token t], []) := by
  match fuel, hf with
  | fuel + 1, _ =>
    rw [parseDoc]
    rw [parseSegment_other fuel t [] h1 h2]
    simp [parseDoc_nil]

/-- The unterminated-quoted-string family of C4, at the parse level. -/
theorem unterminated_string_parse (s : List Char) (h : dquoteChar ∉ s) :
    (parse (dquoteChar :: s)).2 =
      [⟨missingEndQuoteMsg ⟨.doubleQuote, [dquoteChar]⟩, 0, s.length + 1⟩] ∧
    ∃ t : Token, (parse (dquoteChar :: s)).1.segments = [.token t] ∧
      t.type = .quotedString ∧ t.start = 0 ∧ t.length = s.length + 1 := by
  unfold parse
  rw [tokenize_unterminated_string s h]
  simp only
  rw [parseDoc_single _ (by simp) _ (by simp) (by simp)]
  refine ⟨by simp, ⟨⟨.quotedString, ⟨.doubleQuote, [dquoteChar]⟩ :: lexer s, 0⟩, by simp, rfl, rfl, ?_⟩⟩
  simp [Token.length, Token.text, lexesText, lexer_text]

/-- The unterminated-block-comment family of C4, at the parse level. -/
theorem unterminated_block_parse (s : List Char) (h : (scanBlock (lexer s)).2 = []) :
    (parse ('/' :: '*' :: s)).2 = [] ∧
    ∃ t : Token, (parse ('/' :: '*' :: s)).1.segments = [.token t] ∧
      t.type = .blockComment ∧ t.start = 0 ∧ t.length = s.length + 2 := by
  unfold parse
  rw [tokenize_unterminated_block s h]
  simp only
  rw [parseDoc_single _ (by simp) _ (by simp) (by simp)]
  refine ⟨by simp, ⟨⟨.blockComment,
    ⟨.forwardSlash, ['/']⟩ :: ⟨.asterisk, ['*']⟩ :: (scanBlock (lexer s)).1, 0⟩,
    by simp, rfl, rfl, ?_⟩⟩
  have htext := scanBlock_text (lexer s)
  rw [h] at htext
  simp only [lexesText, List.append_nil] at htext
  simp [Token.length, Token.text, lexesText, htext, lexer_text]

/-- The unterminated-object family of C4 (`\x7b` followed by whitespace), at
the parse level. -/
theorem unterminated_object_parse (n : Nat) :
    (parse (lcbChar :: List.replicate n ' ')).2 = [⟨missingRcbMsg, 0, 1⟩] ∧
    ∃ ss, (parse (lcbChar :: List.replicate n ' ')).1.segments = [.objectSegment ss] ∧
      segStart (.objectSegment ss) = 0 ∧ segLength (.objectSegment ss) = n + 1 := by
  unfold parse
  rw [lexer_lcb_cons, lexer_replicate_space]
  cases n with
  | zero =>
    rw [show List.replicate 0 (⟨.space, [' ']⟩ : Lex) = [] from rfl]
    rw [tokenize]
    simp only [nextToken]
    simp only [tokenize]
    refine ⟨?_, ⟨[Segment.token ⟨.leftCurlyBracket, [⟨.leftCurlyBracket, [lcbChar]⟩], 0⟩],
      ?_, ?_, ?_⟩⟩
    · simp [parseDoc, parseSegment, parseObject, objectLoop, objectLoop_nil, parseDoc_nil,
        rootEligible, issueAt, Token.length, Token.text, lexesText]
    · simp [parseDoc, parseSegment, parseObject, objectLoop, objectLoop_nil, parseDoc_nil,
        rootEligible]
    · simp [segStart]
    · simp [segLength, segText, segsText, Token.text, lexesText]
  | succ m =>
    rw [tokenize]
    simp only [nextToken]
    rw [show (⟨.leftCurlyBracket, [⟨.leftCurlyBracket, [lcbChar]⟩], 0⟩ : Token).length = 1 from rfl]
    rw [tokenize_spaces]
    refine ⟨?_, ⟨[Segment.token ⟨.leftCurlyBracket, [⟨.leftCurlyBracket, [lcbChar]⟩], 0⟩,
      Segment.token ⟨.whitespace, List.replicate (m + 1) ⟨.space, [' ']⟩, 0 + 1⟩], ?_, ?_, ?_⟩⟩
    · simp [parseDoc, parseSegment, parseObject, objectLoop, objectLoop_nil, parseDoc_nil,
        rootEligible, issueAt, Token.length, Token.text, lexesText]
    · simp [parseDoc, parseSegment, parseObject, objectLoop, objectLoop_nil, parseDoc_nil,
        rootEligible]
    · simp [segStart]
    · simp [segLength, segText, segsText, Token.text, lexesText, lexesText_replicate_space]

/-- The unterminated-array family of C4 (`[` followed by whitespace), at the
parse level. -/
theorem unterminated_array_parse (n : Nat) :
    (parse ('[' :: List.replicate n ' ')).2 = [⟨missingRsbMsg, 0, 1⟩] ∧
    ∃ ss, (parse ('[' :: List.replicate n ' ')).1.segments = [.arraySegment ss] ∧
      segStart (.arraySegment ss) = 0 ∧ segLength (.arraySegment ss) = n + 1 := by
  unfold parse
  rw [lexer_lsb_cons, lexer_replicate_space]
  cases n with
  | zero =>
    rw [show List.replicate 0 (⟨.space, [' ']⟩ : Lex) = [] from rfl]
    rw [tokenize]
    simp only [nextToken]
    simp only [tokenize]
    refine ⟨?_, ⟨[Segment.token ⟨.leftSquareBracket, [⟨.leftSquareBracket, ['[']⟩], 0⟩],
      ?_, ?_, ?_⟩⟩
    · simp [parseDoc, parseSegment, parseArray, arrayLoop, arrayLoop_nil, parseDoc_nil,
        rootEligible, issueAt, Token.length, Token.text, lexesText]
    · simp [parseDoc, parseSegment, parseArray, arrayLoop, arrayLoop_nil, parseDoc_nil,
        rootEligible]
    · simp [segStart]
    · simp [segLength, segText, segsText, Token.text, lexesText]
  | succ m =>
    rw [tokenize]
    simp only [nextToken]
    rw [show (⟨.leftSquareBracket, [⟨.leftSquareBracket, ['[']⟩], 0⟩ : Token).length = 1 from rfl]
    rw [tokenize_spaces]
    refine ⟨?_, ⟨[Segment.token ⟨.leftSquareBracket, [⟨.leftSquareBracket, ['[']⟩], 0⟩,
      Segment.token ⟨.whitespace, List.replicate (m + 1) ⟨.space, [' ']⟩, 0 + 1⟩], ?_, ?_, ?_⟩⟩
    · simp [parseDoc, parseSegment, parseArray, arrayLoop, arrayLoop_nil, parseDoc_nil,
        rootEligible, issueAt, Token.length, Token.text, lexesText]
    · simp [parseDoc, parseSegment, parseArray, arrayLoop, arrayLoop_nil, parseDoc_nil,
        rootEligible]
    · simp [segStart]
    · simp [segLength, segText, segsText, Token.text, lexesText, lexesText_replicate_space]

/-- For every input beginning with `/` then `*`, the first token is a
BlockComment that consumes the lexemes the block scan consumes. -/
theorem blockComment_first_token (s : List Char) :
    ((tokenize 0 (lexer ('/' :: '*' :: s))).1.head?.map Token.type) = some .blockComment := by
  rw [lexer_slash_ast, tokenize]
  simp [nextToken]


/-- C1: for every input string (including malformed, empty and unterminated
inputs), the parsed document's toString reproduces the input exactly. -/
theorem claim_C1 (s : List Char) : (parse s).1.toString = s := parse_toString s

/-- C1 witness: the round trip at a concrete malformed input. -/
theorem claim_C1_witness : (parse ['[', lcbChar, ':']).1.toString = ['[', lcbChar, ':'] :=
  claim_C1 ['[', lcbChar, ':']

set_option maxHeartbeats 2000000 in
/-- C5: parsing the input consisting of a left curly bracket, the quoted
name "age", a colon, the number 20, a trailing comma and the right curly
bracket yields an object with exactly one derived property and exactly one
issue, "Expected property name.", whose span is the closing bracket at
index 10, not the comma at index 9. -/
theorem claim_C5 :
    (parse [lcbChar, dquoteChar, 'a', 'g', 'e', dquoteChar, ':', '2', '0', ',', rcbChar]).2 =
      [⟨expectedPropertyNameMsg, 10, 1⟩] ∧
    ((parse [lcbChar, dquoteChar, 'a', 'g', 'e', dquoteChar, ':', '2', '0', ',',
        rcbChar]).1.segments.map fun s => match s with
      | .objectSegment ss => some ((getProperties ss).length)
      | _ => none) = [some 1] := by
  refine ⟨?_, ?_⟩
  all_goals
    simp [parse, tokenize, lexer, nextToken, scanQuoted, scanBlock, scanNumber, scanNumSign,
      scanNumWhole, scanNumFrac, scanNumExp, isWsLex, notNewLineLex, parseDoc, parseSegment,
      parseObject, objectLoop, parseProperty, parseArray, arrayLoop, isLetterChar, isDigitChar,
      classifyChar, lexesText, lexesLength, Token.length, Token.text, Lex.length, lcbChar,
      rcbChar, squoteChar, dquoteChar, issueAt, rootEligible, isWsTok, getProperties]

set_option maxHeartbeats 4000000 in
/-- C2 (amended): formatting is not idempotent under re-parsing in general;
for the input of a left curly bracket, two double quotes, a colon and a
backslash, the second reformat differs from the first (an extra space is
inserted after the colon), while the third application coincides with the
second. -/
theorem claim_C2 :
    reformat (reformat [lcbChar, dquoteChar, dquoteChar, ':', '\\']) ≠
      reformat [lcbChar, dquoteChar, dquoteChar, ':', '\\'] ∧
    reformat (reformat (reformat [lcbChar, dquoteChar, dquoteChar, ':', '\\'])) =
      reformat (reformat [lcbChar, dquoteChar, dquoteChar, ':', '\\']) := by
  refine ⟨?_, ?_⟩
  all_goals
    simp [reformat, Document.format, segFormat, propFormatLoop, objFormatLoop, arrFormatLoop,
      bracketIndent, newLineIndent, isTokType, parse, tokenize, lexer, nextToken, scanQuoted, scanBlock, scanNumber, scanNumSign,
      scanNumWhole, scanNumFrac, scanNumExp, isWsLex, notNewLineLex, parseDoc, parseSegment,
      parseObject, objectLoop, parseProperty, parseArray, arrayLoop, isLetterChar, isDigitChar,
      classifyChar, lexesText, lexesLength, Token.length, Token.text, Lex.length, lcbChar,
      rcbChar, squoteChar, dquoteChar, issueAt, rootEligible, isWsTok]

set_option maxHeartbeats 4000000 in
/-- C2 counterexample: a concrete input on which format∘parse applied twice
differs from once. -/
theorem claim_C2_counterexample :
    reformat (reformat [lcbChar, dquoteChar, dquoteChar, ':', '\\']) ≠
      reformat [lcbChar, dquoteChar, dquoteChar, ':', '\\'] := by
  simp [reformat, Document.format, segFormat, propFormatLoop, objFormatLoop, arrFormatLoop,
    bracketIndent, newLineIndent, isTokType, parse, tokenize, lexer, nextToken, scanQuoted, scanBlock, scanNumber, scanNumSign,
      scanNumWhole, scanNumFrac, scanNumExp, isWsLex, notNewLineLex, parseDoc, parseSegment,
      parseObject, objectLoop, parseProperty, parseArray, arrayLoop, isLetterChar, isDigitChar,
      classifyChar, lexesText, lexesLength, Token.length, Token.text, Lex.length, lcbChar,
      rcbChar, squoteChar, dquoteChar, issueAt, rootEligible, isWsTok]

set_option maxHeartbeats 2000000 in
/-- C3 (amended): every input beginning with the lexemes `/` `*` yields a
BlockComment first token, but the comment ends at the first `*/` whose
asterisk is not itself consumed as the lexeme following a previous
asterisk: "/**/x" gives a comment of length 4 with "x" tokenized
separately, while in "/* **/x" the comment swallows the whole input. -/
theorem claim_C3 :
    (∀ s : List Char,
      ((tokenize 0 (lexer ('/' :: '*' :: s))).1.head?.map Token.type) = some .blockComment) ∧
    ((tokenize 0 (lexer ['/', '*', '*', '/', 'x'])).1.map
      (fun t => (t.type, t.start, t.length))) =
        [(.blockComment, 0, 4), (.unrecognized, 4, 1)] ∧
    ((tokenize 0 (lexer ['/', '*', ' ', '*', '*', '/', 'x'])).1.map
      (fun t => (t.type, t.start, t.length))) = [(.blockComment, 0, 7)] := by
  refine ⟨blockComment_first_token, ?_, ?_⟩
  all_goals
    simp [parse, tokenize, lexer, nextToken, scanQuoted, scanBlock, scanNumber, scanNumSign,
      scanNumWhole, scanNumFrac, scanNumExp, isWsLex, notNewLineLex, parseDoc, parseSegment,
      parseObject, objectLoop, parseProperty, parseArray, arrayLoop, isLetterChar, isDigitChar,
      classifyChar, lexesText, lexesLength, Token.length, Token.text, Lex.length, lcbChar,
      rcbChar, squoteChar, dquoteChar, issueAt, rootEligible, isWsTok]

set_option maxHeartbeats 2000000 in
/-- C3 counterexample: for "/* **/x" the BlockComment token does not end at
the first occurrence of an asterisk followed by a slash; it covers the whole
input, "x" included, as the single token produced. -/
theorem claim_C3_counterexample :
    ((tokenize 0 (lexer ['/', '*', ' ', '*', '*', '/', 'x'])).1.map
      (fun t => (t.type, t.start, t.length))) = [(.blockComment, 0, 7)] := by
  simp [parse, tokenize, lexer, nextToken, scanQuoted, scanBlock, scanNumber, scanNumSign,
      scanNumWhole, scanNumFrac, scanNumExp, isWsLex, notNewLineLex, parseDoc, parseSegment,
      parseObject, objectLoop, parseProperty, parseArray, arrayLoop, isLetterChar, isDigitChar,
      classifyChar, lexesText, lexesLength, Token.length, Token.text, Lex.length, lcbChar,
      rcbChar, squoteChar, dquoteChar, issueAt, rootEligible, isWsTok]

/-- C4: a quote followed by text with no closing quote yields exactly one
missing-end-quote issue spanning the whole string token, which runs to the
end of input; a left curly or square bracket followed by whitespace yields
exactly one missing-closing-bracket issue at the opening bracket while the
segment spans the whole input; an unterminated block comment yields no
issue at all while its token still spans to the end of input. -/
theorem claim_C4 :
    (∀ s : List Char, dquoteChar ∉ s →
      (parse (dquoteChar :: s)).2 =
        [⟨missingEndQuoteMsg ⟨.doubleQuote, [dquoteChar]⟩, 0, s.length + 1⟩] ∧
      ∃ t : Token, (parse (dquoteChar :: s)).1.segments = [.token t] ∧
        t.type = .quotedString ∧ t.start = 0 ∧ t.length = s.length + 1) ∧
    (∀ n : Nat,
      (parse (lcbChar :: List.replicate n ' ')).2 = [⟨missingRcbMsg, 0, 1⟩] ∧
      ∃ ss, (parse (lcbChar :: List.replicate n ' ')).1.segments = [.objectSegment ss] ∧
        segStart (.objectSegment ss) = 0 ∧ segLength (.objectSegment ss) = n + 1) ∧
    (∀ n : Nat,
      (parse ('[' :: List.replicate n ' ')).2 = [⟨missingRsbMsg, 0, 1⟩] ∧
      ∃ ss, (parse ('[' :: List.replicate n ' ')).1.segments = [.arraySegment ss] ∧
        segStart (.arraySegment ss) = 0 ∧ segLength (.arraySegment ss) = n + 1) ∧
    (∀ s : List Char, (scanBlock (lexer s)).2 = [] →
      (parse ('/' :: '*' :: s)).2 = [] ∧
      ∃ t : Token, (parse ('/' :: '*' :: s)).1.segments = [.token t] ∧
        t.type = .blockComment ∧ t.start = 0 ∧ t.length = s.length + 2) :=
  ⟨unterminated_string_parse, unterminated_object_parse, unterminated_array_parse,
    unterminated_block_parse⟩

set_option maxHeartbeats 2000000 in
/-- C4 witness: the four families at concrete inputs, hypotheses
discharged: an unterminated string "ab, an unterminated object and array
with one space, and the unterminated comment text made of slash, asterisk
and the letter a. -/
theorem claim_C4_witness :
    (parse (dquoteChar :: ['a', 'b'])).2 =
      [⟨missingEndQuoteMsg ⟨.doubleQuote, [dquoteChar]⟩, 0, 3⟩] ∧
    (parse (lcbChar :: List.replicate 1 ' ')).2 = [⟨missingRcbMsg, 0, 1⟩] ∧
    (parse ('[' :: List.replicate 1 ' ')).2 = [⟨missingRsbMsg, 0, 1⟩] ∧
    (parse ('/' :: '*' :: ['a'])).2 = [] := by
  refine ⟨(claim_C4.1 ['a', 'b'] (by decide)).1, (claim_C4.2.1 1).1, (claim_C4.2.2.1 1).1,
    (claim_C4.2.2.2 ['a'] ?_).1⟩
  simp [lexer, scanBlock, isLetterChar, isDigitChar, classifyChar]

set_option maxHeartbeats 2000000 in
/-- C6: parsing a left square bracket, the number 2, a comma and the right
square bracket yields an array whose elements view has the number token "2"
followed by one empty slot, and exactly one issue, "Expected array
element.", anchored at the closing bracket just after the comma. -/
theorem claim_C6 :
    (parse ['[', '2', ',', ']']).2 = [⟨expectedArrayElementMsg, 3, 1⟩] ∧
    ((parse ['[', '2', ',', ']']).1.segments.map fun s => match s with
      | .arraySegment ss => some ((getElements ss).map (Option.map segText))
      | _ => none) = [some [some ['2'], none]] := by
  refine ⟨?_, ?_⟩
  all_goals
    simp [parse, tokenize, lexer, nextToken, scanQuoted, scanBlock, scanNumber, scanNumSign,
      scanNumWhole, scanNumFrac, scanNumExp, isWsLex, notNewLineLex, parseDoc, parseSegment,
      parseObject, objectLoop, parseProperty, parseArray, arrayLoop, isLetterChar, isDigitChar,
      classifyChar, lexesText, lexesLength, Token.length, Token.text, Lex.length, lcbChar,
      rcbChar, squoteChar, dquoteChar, issueAt, rootEligible, isWsTok, getElements, elementsWalk, segText, segsText]

set_option maxHeartbeats 2000000 in
/-- C7 (amended): the root is the first segment that is an object, an array
or a token other than NewLine and Whitespace, comments included, and the
"Expected end of file." issues are exactly one per later root-eligible
segment at that segment's span; concretely, for a line comment followed by
an object the comment is the root and the object raises the issue. -/
theorem claim_C7 :
    (∀ s : List Char,
      (parse s).1.getRoot = ((parse s).1.segments.filter rootEligible).head? ∧
      (parse s).2.filter isEofIssue = eofSpansSpec false (parse s).1.segments) ∧
    (parse ['/', '/', 'c', '\n', lcbChar, rcbChar]).2 = [⟨expectedEofMsg, 4, 2⟩] ∧
    ((parse ['/', '/', 'c', '\n', lcbChar, rcbChar]).1.getRoot.map fun s => match s with
      | .token t => some (t.type, t.start, t.length)
      | _ => none) = some (some (.lineComment, 0, 3)) := by
  refine ⟨fun s => ⟨getRoot_first (parse s).1, parse_eof_filter s⟩, ?_, ?_⟩
  all_goals
    simp [parse, tokenize, lexer, nextToken, scanQuoted, scanBlock, scanNumber, scanNumSign,
      scanNumWhole, scanNumFrac, scanNumExp, isWsLex, notNewLineLex, parseDoc, parseSegment,
      parseObject, objectLoop, parseProperty, parseArray, arrayLoop, isLetterChar, isDigitChar,
      classifyChar, lexesText, lexesLength, Token.length, Token.text, Lex.length, lcbChar,
      rcbChar, squoteChar, dquoteChar, issueAt, rootEligible, isWsTok, Document.getRoot, List.find?, segStart, segLength, segText, segsText]

set_option maxHeartbeats 2000000 in
/-- C7 counterexample: for a line comment followed by an object the root is
the comment token (comments are not skipped as trivia) and the object - the
first object of the input - raises "Expected end of file." at its span. -/
theorem claim_C7_counterexample :
    (parse ['/', '/', 'c', '\n', lcbChar, rcbChar]).2 = [⟨expectedEofMsg, 4, 2⟩] ∧
    ((parse ['/', '/', 'c', '\n', lcbChar, rcbChar]).1.getRoot.map fun s => match s with
      | .token t => some (t.type, t.start, t.length)
      | _ => none) = some (some (.lineComment, 0, 3)) := by
  refine ⟨?_, ?_⟩
  all_goals
    simp [parse, tokenize, lexer, nextToken, scanQuoted, scanBlock, scanNumber, scanNumSign,
      scanNumWhole, scanNumFrac, scanNumExp, isWsLex, notNewLineLex, parseDoc, parseSegment,
      parseObject, objectLoop, parseProperty, parseArray, arrayLoop, isLetterChar, isDigitChar,
      classifyChar, lexesText, lexesLength, Token.length, Token.text, Lex.length, lcbChar,
      rcbChar, squoteChar, dquoteChar, issueAt, rootEligible, isWsTok, Document.getRoot, List.find?, segStart, segLength, segText, segsText]

/-- C8 (amended): the issues of the tokenizer alone are in source order;
the full parse breaks the order when an inner construct's issues precede an
enclosing "Missing closing ..." issue anchored at the earlier opening
bracket. -/
theorem claim_C8 (s : List Char) : issuesSortedB (tokenize 0 (lexer s)).2 = true :=
  (tokenize_issue_inv 0 (lexer s) (lexer_lex_nonempty s)).1

set_option maxHeartbeats 2000000 in
/-- C8 counterexample: for the input of a left square bracket then a left
curly bracket the issue starts are 1 then 0 - not non-decreasing. -/
theorem claim_C8_counterexample :
    (parse ['[', lcbChar]).2 = [⟨missingRcbMsg, 1, 1⟩, ⟨missingRsbMsg, 0, 1⟩] ∧
    issuesSortedB (parse ['[', lcbChar]).2 = false := by
  refine ⟨?_, ?_⟩
  all_goals
    simp [parse, tokenize, lexer, nextToken, scanQuoted, scanBlock, scanNumber, scanNumSign,
      scanNumWhole, scanNumFrac, scanNumExp, isWsLex, notNewLineLex, parseDoc, parseSegment,
      parseObject, objectLoop, parseProperty, parseArray, arrayLoop, isLetterChar, isDigitChar,
      classifyChar, lexesText, lexesLength, Token.length, Token.text, Lex.length, lcbChar,
      rcbChar, squoteChar, dquoteChar, issueAt, rootEligible, isWsTok, issuesSortedB, Issue.afterEnd]

/-- C9: every issue of a full parse - tokenizer and parser alike - has a
span within the bounds of the input text: a non-negative start, and an end
no later than the position just after the last character. -/
theorem claim_C9 (s : List Char) (i : Issue) (hi : i ∈ (parse s).2) :
    0 ≤ i.start ∧ i.start + i.length ≤ s.length :=
  ⟨Nat.zero_le _, parse_issue_bounds s i hi⟩

set_option maxHeartbeats 2000000 in
/-- C9 witness: the single issue of parsing a lone left square bracket lies
within the one-character input. -/
theorem claim_C9_witness :
    0 ≤ (⟨missingRsbMsg, 0, 1⟩ : Issue).start ∧
    (⟨missingRsbMsg, 0, 1⟩ : Issue).start + (⟨missingRsbMsg, 0, 1⟩ : Issue).length ≤
      (['['] : List Char).length :=
  claim_C9 ['['] ⟨missingRsbMsg, 0, 1⟩ (by
    simp [parse, tokenize, lexer, nextToken, scanQuoted, scanBlock, scanNumber, scanNumSign,
      scanNumWhole, scanNumFrac, scanNumExp, isWsLex, notNewLineLex, parseDoc, parseSegment,
      parseObject, objectLoop, parseProperty, parseArray, arrayLoop, isLetterChar, isDigitChar,
      classifyChar, lexesText, lexesLength, Token.length, Token.text, Lex.length, lcbChar,
      rcbChar, squoteChar, dquoteChar, issueAt, rootEligible, isWsTok])

set_option maxHeartbeats 2000000 in
/-- C10: parsing a left square bracket, a comma and a right square bracket
yields an array whose elements view is exactly two empty slots: the walk
itself contributes one slot for the comma (not following a completed
element) and ends not expecting a comma, so getElements appends one
trailing slot. -/
theorem claim_C10 :
    ((parse ['[', ',', ']']).1.segments.map fun s => match s with
      | .arraySegment ss =>
        some ((elementsWalk false ss).1, (elementsWalk false ss).2, getElements ss)
      | _ => none) = [some ([none], false, [none, none])] := by
  simp [parse, tokenize, lexer, nextToken, scanQuoted, scanBlock, scanNumber, scanNumSign,
      scanNumWhole, scanNumFrac, scanNumExp, isWsLex, notNewLineLex, parseDoc, parseSegment,
      parseObject, objectLoop, parseProperty, parseArray, arrayLoop, isLetterChar, isDigitChar,
      classifyChar, lexesText, lexesLength, Token.length, Token.text, Lex.length, lcbChar,
      rcbChar, squoteChar, dquoteChar, issueAt, rootEligible, isWsTok, getElements, elementsWalk]

end Json
